import Mathlib

/-!
Shallow embedding of the RewriteQR repository core:
  - `modifyCreateTime` (src/base_script.js lines 111-130 and src/unnamed/part_001
    lines 129-148; identical code): regex hour bump on the first
    `createTime=NNNN-NN-NN[ T]NN:NN:NN` span.
  - `QRAnalyzer.parseQRContent`, `parseTimeString`, `analyzeTimeDifferences`,
    `createComparisonResults` (src/unnamed/part_000).
Strings are embedded as `List Char` (`JStr`); JS string builtins used by the
source (`split`, `includes`, `padStart`, `decodeURIComponent`, `URLSearchParams`,
`Date`, `Math.round`, `Array.sort`, `Set`) are modelled explicitly below, each
with a doc comment stating the modelling choices.
-/

namespace RewriteQR

/-- JS strings are embedded as lists of Unicode characters. -/
abbrev JStr := List Char

/-! ## Time Mutator (modifyCreateTime) -/

/-- The literal `createTime=` that heads the mutator's regex. -/
def ctEq : JStr := "createTime=".toList

/-- The bare key `createTime` (used by `parseQRContent` for the time field). -/
def ctKey : JStr := "createTime".toList

/-- Expect a literal prefix; on success return the remaining characters.
Models matching a literal part of the regex. -/
def expectLit : JStr → JStr → Option JStr
  | [], s => some s
  | _ :: _, [] => none
  | c :: p, c' :: s => if c' = c then expectLit p s else none

/-- Expect exactly `n` ASCII digits (the regex `[0-9]{n}`); return them and the rest. -/
def takeDigits : Nat → JStr → Option (JStr × JStr)
  | 0, s => some ([], s)
  | _ + 1, [] => none
  | n + 1, c :: s =>
    if c.isDigit then
      match takeDigits n s with
      | some (d, r) => some (c :: d, r)
      | none => none
    else none

/-- Expect one specific character; return the rest. -/
def expectChar (c : Char) : JStr → Option JStr
  | [] => none
  | c' :: s => if c' = c then some s else none

/-- Expect the separator character class `[ T]` of the regex. -/
def expectSep : JStr → Option (Char × JStr)
  | [] => none
  | c :: s => if c = ' ' ∨ c = 'T' then some (c, s) else none

/-- The capture groups of the mutator's regex
`createTime=([0-9]{4}-[0-9]{2}-[0-9]{2})([ T])([0-9]{2})(:[0-9]{2}:[0-9]{2})`
together with the text following the whole match. -/
structure TimeMatch where
  datePart : JStr
  sep : Char
  hourStr : JStr
  rest : JStr
  tail : JStr
  deriving DecidableEq

/-- Match the mutator's regex at the head of `s`: literal `createTime=`,
a `NNNN-NN-NN` date, one space-or-`T` separator, a two-digit hour, then
`:NN:NN`.  Returns the capture groups and the unconsumed tail. -/
def matchPat (s : JStr) : Option TimeMatch := do
  let s1 ← expectLit ctEq s
  let (y, s2) ← takeDigits 4 s1
  let s3 ← expectChar '-' s2
  let (mo, s4) ← takeDigits 2 s3
  let s5 ← expectChar '-' s4
  let (d, s6) ← takeDigits 2 s5
  let (sp, s7) ← expectSep s6
  let (h, s8) ← takeDigits 2 s7
  let s9 ← expectChar ':' s8
  let (mi, s10) ← takeDigits 2 s9
  let s11 ← expectChar ':' s10
  let (se, s12) ← takeDigits 2 s11
  pure ⟨y ++ '-' :: mo ++ '-' :: d, sp, h, ':' :: mi ++ ':' :: se, s12⟩

/-- Numeric value of a digit string; models `parseInt(str, 10)` on the
all-digit strings produced by the regex's `[0-9]{2}` group. -/
def digitsToNat (s : JStr) : Nat := s.foldl (fun a c => 10 * a + (c.toNat - 48)) 0

/-- Models JS `String.prototype.padStart(2, "0")`. -/
def padStart2 (s : JStr) : JStr := List.replicate (2 - s.length) '0' ++ s

/-- The new hour string: `((parseInt(hourStr, 10) + 1) % 24).toString().padStart(2, "0")`.
`Nat.toDigits 10` models `Number.prototype.toString()` for the natural number. -/
def bumpHour (h : JStr) : JStr := padStart2 (Nat.toDigits 10 ((digitsToNat h + 1) % 24))

/-- The replacement text `createTime=${datePart}${sep}${newHourStr}${rest}`
substituted for the whole match. -/
def replacement (m : TimeMatch) : JStr :=
  ctEq ++ m.datePart ++ m.sep :: bumpHour m.hourStr ++ m.rest

/-- Scan for the leftmost regex match and splice in the replacement
(models `text.replace(regex, ...)`, which replaces only the first match
of a non-global regex); `none` when the regex matches nowhere. -/
def modifyGo : JStr → Option JStr
  | [] => none
  | c :: s =>
    match matchPat (c :: s) with
    | some m => some (replacement m ++ m.tail)
    | none => (modifyGo s).map (c :: ·)

/-- `modifyCreateTime` of src/base_script.js lines 111-130 (and the identical
copy in src/unnamed/part_001): bump the hour of the first `createTime=...`
span by one modulo 24; return the text unchanged when the regex has no match. -/
def modifyCreateTime (text : JStr) : JStr := (modifyGo text).getD text

/-- Whether the mutator's regex matches anywhere in the text
(models `text.match(regex) !== null`). -/
def hasMatch : JStr → Bool
  | [] => false
  | c :: s => (matchPat (c :: s)).isSome || hasMatch s

/-- Validity of the capture groups: exactly the shapes the regex accepts. -/
def validMatch (m : TimeMatch) : Prop :=
  (∃ y mo d : JStr, m.datePart = y ++ '-' :: (mo ++ '-' :: d) ∧
    y.length = 4 ∧ y.all Char.isDigit = true ∧
    mo.length = 2 ∧ mo.all Char.isDigit = true ∧
    d.length = 2 ∧ d.all Char.isDigit = true) ∧
  (m.sep = ' ' ∨ m.sep = 'T') ∧
  m.hourStr.length = 2 ∧ m.hourStr.all Char.isDigit = true ∧
  (∃ mi se : JStr, m.rest = ':' :: (mi ++ ':' :: se) ∧
    mi.length = 2 ∧ mi.all Char.isDigit = true ∧
    se.length = 2 ∧ se.all Char.isDigit = true)

/-- The full matched span (the regex's `match[0]`). -/
def spanOf (m : TimeMatch) : JStr := ctEq ++ m.datePart ++ m.sep :: m.hourStr ++ m.rest

/-- Replace the hour of the first regex match within the first segment that
has one; `none` when no segment matches.  This is the per-segment view of
`modifyGo` over an `&`-joined text (proved in `modifyGo_joinSep`). -/
def bumpSegs : List JStr → Option (List JStr)
  | [] => none
  | s :: ss =>
    match modifyGo s with
    | some s' => some (s' :: ss)
    | none => (bumpSegs ss).map (s :: ·)

/-! ## JS string splitting -/

/-- Models JS `String.prototype.split` with a single-character separator:
all segments, empty segments kept, `"".split(sep)` is `[""]`. -/
def jsSplit (sep : Char) : JStr → List JStr
  | [] => [[]]
  | c :: s =>
    match jsSplit sep s with
    | [] => [[]]
    | t :: ts => if c = sep then [] :: t :: ts else (c :: t) :: ts

/-- Models JS `String.prototype.split(sep, limit)`: the first `limit`
segments of the full split. -/
def jsSplitLimit (sep : Char) (limit : Nat) (s : JStr) : List JStr :=
  (jsSplit sep s).take limit

/-- Split at the first occurrence of `sep`: (part before, part after);
when `sep` is absent, (whole string, empty).  Used to model the
`application/x-www-form-urlencoded` per-segment name/value split. -/
def splitFirst (sep : Char) : JStr → JStr × JStr
  | [] => ([], [])
  | c :: s =>
    if c = sep then ([], s)
    else
      let p := splitFirst sep s
      (c :: p.1, p.2)

/-! ## Percent decoding (decodeURIComponent and URLSearchParams) -/

/-- Value of one hex digit, or `none`. -/
def hexDigitVal (c : Char) : Option Nat :=
  if '0' ≤ c ∧ c ≤ '9' then some (c.toNat - 48)
  else if 'A' ≤ c ∧ c ≤ 'F' then some (c.toNat - 55)
  else if 'a' ≤ c ∧ c ≤ 'f' then some (c.toNat - 87)
  else none

/-- One token of a percent-encoded string: either a plain character or a
byte produced by a `%XX` escape. -/
inductive PTok where
  | chr (c : Char)
  | byte (b : Nat)
  deriving DecidableEq

/-- Strict tokenization used by `decodeURIComponent`: every `%` must be
followed by two hex digits, otherwise the builtin throws `URIError`
(modelled as `none`). -/
def pctTokStrict : JStr → Option (List PTok)
  | [] => some []
  | c :: s =>
    if c = '%' then
      match s with
      | h1 :: h2 :: s' =>
        match hexDigitVal h1, hexDigitVal h2 with
        | some a, some b => (pctTokStrict s').map (PTok.byte (16 * a + b) :: ·)
        | _, _ => none
      | _ => none
    else (pctTokStrict s).map (PTok.chr c :: ·)

/-- Lenient tokenization used by `URLSearchParams`: a `%` not followed by
two hex digits is kept as a literal character. -/
def pctTokLenient : JStr → List PTok
  | [] => []
  | c :: s =>
    if c = '%' then
      match s with
      | h1 :: h2 :: s' =>
        match hexDigitVal h1, hexDigitVal h2 with
        | some a, some b => PTok.byte (16 * a + b) :: pctTokLenient s'
        | _, _ => PTok.chr '%' :: pctTokLenient (h1 :: h2 :: s')
      | [h1] => [PTok.chr '%', PTok.chr h1]
      | [] => [PTok.chr '%']
    else PTok.chr c :: pctTokLenient s

/-- Whether a byte is a UTF-8 continuation byte. -/
def utf8Cont (b : Nat) : Bool := 0x80 ≤ b && b ≤ 0xBF

/-- Strict UTF-8 decoding of a byte run (the byte sequences produced by
consecutive `%XX` escapes); `none` on any ill-formed sequence, which is
what makes `decodeURIComponent` throw on inputs such as `"%80"`. -/
def utf8DecodeStrict : List Nat → Option JStr
  | [] => some []
  | b :: bs =>
    if b ≤ 0x7F then (utf8DecodeStrict bs).map (Char.ofNat b :: ·)
    else if 0xC2 ≤ b && b ≤ 0xDF then
      match bs with
      | b2 :: bs' =>
        if utf8Cont b2 then
          (utf8DecodeStrict bs').map (Char.ofNat ((b - 0xC0) * 64 + (b2 - 0x80)) :: ·)
        else none
      | [] => none
    else if 0xE0 ≤ b && b ≤ 0xEF then
      match bs with
      | b2 :: b3 :: bs' =>
        let lo2 : Nat := if b = 0xE0 then 0xA0 else 0x80
        let hi2 : Nat := if b = 0xED then 0x9F else 0xBF
        if (lo2 ≤ b2 && b2 ≤ hi2) && utf8Cont b3 then
          (utf8DecodeStrict bs').map
            (Char.ofNat ((b - 0xE0) * 4096 + (b2 - 0x80) * 64 + (b3 - 0x80)) :: ·)
        else none
      | _ => none
    else if 0xF0 ≤ b && b ≤ 0xF4 then
      match bs with
      | b2 :: b3 :: b4 :: bs' =>
        let lo2 : Nat := if b = 0xF0 then 0x90 else 0x80
        let hi2 : Nat := if b = 0xF4 then 0x8F else 0xBF
        if (lo2 ≤ b2 && b2 ≤ hi2) && utf8Cont b3 && utf8Cont b4 then
          (utf8DecodeStrict bs').map
            (Char.ofNat ((b - 0xF0) * 262144 + (b2 - 0x80) * 4096 +
              (b3 - 0x80) * 64 + (b4 - 0x80)) :: ·)
        else none
      | _ => none
    else none

/-- Lenient UTF-8 decoding used by the `URLSearchParams` value decoder:
an ill-formed byte yields U+FFFD and decoding continues with the next byte
(an approximation of the WHATWG maximal-subpart policy; the claims never
exercise ill-formed multi-byte runs).  The fuel argument (always called
with the byte count, which every step strictly decreases) keeps the
recursion structural. -/
def utf8DecodeLenientGo : Nat → List Nat → JStr
  | 0, _ => []
  | _ + 1, [] => []
  | fuel + 1, b :: bs =>
    if b ≤ 0x7F then Char.ofNat b :: utf8DecodeLenientGo fuel bs
    else if 0xC2 ≤ b && b ≤ 0xDF then
      match bs with
      | b2 :: bs' =>
        if utf8Cont b2 then
          Char.ofNat ((b - 0xC0) * 64 + (b2 - 0x80)) :: utf8DecodeLenientGo fuel bs'
        else '�' :: utf8DecodeLenientGo fuel (b2 :: bs')
      | [] => ['�']
    else if 0xE0 ≤ b && b ≤ 0xEF then
      match bs with
      | b2 :: b3 :: bs' =>
        let lo2 : Nat := if b = 0xE0 then 0xA0 else 0x80
        let hi2 : Nat := if b = 0xED then 0x9F else 0xBF
        if (lo2 ≤ b2 && b2 ≤ hi2) && utf8Cont b3 then
          Char.ofNat ((b - 0xE0) * 4096 + (b2 - 0x80) * 64 + (b3 - 0x80)) ::
            utf8DecodeLenientGo fuel bs'
        else '�' :: utf8DecodeLenientGo fuel (b2 :: b3 :: bs')
      | [b2] => '�' :: utf8DecodeLenientGo fuel [b2]
      | [] => ['�']
    else if 0xF0 ≤ b && b ≤ 0xF4 then
      match bs with
      | b2 :: b3 :: b4 :: bs' =>
        let lo2 : Nat := if b = 0xF0 then 0x90 else 0x80
        let hi2 : Nat := if b = 0xF4 then 0x8F else 0xBF
        if (lo2 ≤ b2 && b2 ≤ hi2) && utf8Cont b3 && utf8Cont b4 then
          Char.ofNat ((b - 0xF0) * 262144 + (b2 - 0x80) * 4096 +
            (b3 - 0x80) * 64 + (b4 - 0x80)) :: utf8DecodeLenientGo fuel bs'
        else '�' :: utf8DecodeLenientGo fuel (b2 :: b3 :: b4 :: bs')
      | [b2, b3] => '�' :: utf8DecodeLenientGo fuel [b2, b3]
      | [b2] => '�' :: utf8DecodeLenientGo fuel [b2]
      | [] => ['�']
    else '�' :: utf8DecodeLenientGo fuel bs

/-- Lenient UTF-8 decoding of a full byte run. -/
def utf8DecodeLenient (bs : List Nat) : JStr := utf8DecodeLenientGo bs.length bs

/-- Assemble a strict token stream: plain characters pass through and each
maximal `%XX` byte run is decoded as UTF-8, strictly.  `run` accumulates
the bytes of the current run in reverse. -/
def assembleStrictGo (run : List Nat) : List PTok → Option JStr
  | [] => utf8DecodeStrict run.reverse
  | PTok.byte b :: ts => assembleStrictGo (b :: run) ts
  | PTok.chr c :: ts =>
    match utf8DecodeStrict run.reverse, assembleStrictGo [] ts with
    | some cs, some rest => some (cs ++ c :: rest)
    | _, _ => none

/-- Assemble a strict token stream starting with an empty byte run. -/
def assembleStrict (ts : List PTok) : Option JStr := assembleStrictGo [] ts

/-- Assemble a lenient token stream (the `URLSearchParams` decoder). -/
def assembleLenientGo (run : List Nat) : List PTok → JStr
  | [] => utf8DecodeLenient run.reverse
  | PTok.byte b :: ts => assembleLenientGo (b :: run) ts
  | PTok.chr c :: ts => utf8DecodeLenient run.reverse ++ c :: assembleLenientGo [] ts

/-- Assemble a lenient token stream starting with an empty byte run. -/
def assembleLenient (ts : List PTok) : JStr := assembleLenientGo [] ts

/-- Models the JS builtin `decodeURIComponent`: strict percent decoding,
`none` models a thrown `URIError`. -/
def decodeURIComponentJs (s : JStr) : Option JStr := (pctTokStrict s).bind assembleStrict

/-- Models the `+`-to-space step of `application/x-www-form-urlencoded` parsing. -/
def plusToSpace (s : JStr) : JStr := s.map fun c => if c = '+' then ' ' else c

/-- The value decoder of `URLSearchParams`: `+` to space, then lenient
percent decoding.  Total: never throws. -/
def formDecode (s : JStr) : JStr := assembleLenient (pctTokLenient (plusToSpace s))

/-- Models `new URLSearchParams(s)` followed by iteration in order: split on
`&`, skip empty segments, split each segment at its first `=` (a segment
without `=` yields the whole segment as name and the empty value), and
form-decode both sides. -/
def parseURLSearchParams (s : JStr) : List (JStr × JStr) :=
  (jsSplit '&' s).filterMap fun seg =>
    if seg = [] then none
    else
      let kv := splitFirst '=' seg
      some (formDecode kv.1, formDecode kv.2)

/-! ## The parameter object -/

/-- Models assignment `obj[k] = v` on a plain JS object used as a string map:
overwrite in place when the key exists, append otherwise. -/
def objSet : List (JStr × JStr) → JStr → JStr → List (JStr × JStr)
  | [], k, v => [(k, v)]
  | (k', v') :: m, k, v => if k' = k then (k, v) :: m else (k', v') :: objSet m k v

/-- Models property lookup `obj[k]` (`none` for a missing key). -/
def objGet (m : List (JStr × JStr)) (k : JStr) : Option JStr :=
  (m.find? fun p => p.1 = k).map (·.2)

/-- Models `Object.keys(obj)`. -/
def objKeys (m : List (JStr × JStr)) : List JStr := m.map (·.1)

/-- Spec-level description of last-write-wins lookup in a pair list:
the value of the last `key=value` occurrence with the given key. -/
def lastLookup : List (JStr × JStr) → JStr → Option JStr
  | [], _ => none
  | (k', v) :: ps, k =>
    match lastLookup ps k with
    | some w => some w
    | none => if k' = k then some v else none

/-! ## Time field interpreter (parseTimeString) -/

/-- Result of `parseTimeString` (src/unnamed/part_000 lines 149-183).
`timestamp` models both the `parsed` Date (null on failure, truthy
otherwise) and its `getTime()` value; `error` is the failure message. -/
structure ParsedTime where
  original : JStr
  timestamp : Option Int
  error : Option JStr
  deriving DecidableEq

/-- Gregorian leap year. -/
def isLeapYear (y : Nat) : Bool := y % 4 == 0 && (y % 100 != 0 || y % 400 == 0)

/-- Days in a month of the proleptic Gregorian calendar. -/
def daysInMonth (y m : Nat) : Nat :=
  if m = 2 then (if isLeapYear y then 29 else 28)
  else if m = 4 ∨ m = 6 ∨ m = 9 ∨ m = 11 then 30
  else 31

/-- Days from 1970-01-01 to year `y`, month `m`, day `d` (proleptic
Gregorian, the civil-from-days algorithm used by calendar libraries). -/
def daysFromCivil (y m d : Nat) : Int :=
  let yi : Int := if m ≤ 2 then (y : Int) - 1 else (y : Int)
  let era : Int := Int.fdiv yi 400
  let yoe : Int := yi - era * 400
  let mp : Int := if 2 < m then (m : Int) - 3 else (m : Int) + 9
  let doy : Int := (153 * mp + 2) / 5 + (d : Int) - 1
  let doe : Int := yoe * 365 + yoe / 4 - yoe / 100 + doy
  era * 146097 + doe - 719468

/-- Digit-field parse of `YYYY-MM-DD` optionally followed by ` HH:MM:SS`. -/
def parseDateParts (s : JStr) : Option (Nat × Nat × Nat × Nat × Nat × Nat) := do
  let (y, s1) ← takeDigits 4 s
  let s2 ← expectChar '-' s1
  let (mo, s3) ← takeDigits 2 s2
  let s4 ← expectChar '-' s3
  let (d, s5) ← takeDigits 2 s4
  match s5 with
  | [] => pure (digitsToNat y, digitsToNat mo, digitsToNat d, 0, 0, 0)
  | ' ' :: s6 => do
    let (h, s7) ← takeDigits 2 s6
    let s8 ← expectChar ':' s7
    let (mi, s9) ← takeDigits 2 s8
    let s10 ← expectChar ':' s9
    let (se, s11) ← takeDigits 2 s10
    if s11 = [] then
      pure (digitsToNat y, digitsToNat mo, digitsToNat d,
        digitsToNat h, digitsToNat mi, digitsToNat se)
    else none
  | _ => none

/-- Models the host `new Date(string)` constructor restricted to the shapes
the repository feeds it after normalization: `YYYY-MM-DD` or
`YYYY-MM-DD HH:MM:SS`, validated as a real calendar instant and mapped to
epoch milliseconds (the host's local-zone offset is taken as zero; every
claim about this value only uses differences or validity, which are
offset-independent).  Any other shape is an invalid date (`none`). -/
def jsDateParse (s : JStr) : Option Int :=
  match parseDateParts s with
  | none => none
  | some (y, mo, d, h, mi, se) =>
    if 1 ≤ mo ∧ mo ≤ 12 ∧ 1 ≤ d ∧ d ≤ daysInMonth y mo ∧ h ≤ 23 ∧ mi ≤ 59 ∧ se ≤ 59 then
      some (daysFromCivil y mo d * 86400000 + (h : Int) * 3600000 +
        (mi : Int) * 60000 + (se : Int) * 1000)
    else none

/-- Models `String.prototype.trim` (whitespace stripped from both ends). -/
def jsTrim (s : JStr) : JStr :=
  ((s.dropWhile Char.isWhitespace).reverse.dropWhile Char.isWhitespace).reverse

/-- The normalization `timeString.replace(/[TZ]/g, ' ').trim()`. -/
def cleanTimeStr (s : JStr) : JStr :=
  jsTrim (s.map fun c => if c = 'T' ∨ c = 'Z' then ' ' else c)

/-- Error message marker for an unparseable time (the source uses a
Chinese message; its exact text is immaterial to every claim). -/
def timeErrMsg : JStr := "time parse failed".toList

/-- `parseTimeString` of src/unnamed/part_000 lines 149-183: normalize
separators, parse as a date, and return either a valid instant or an
error marker; never throws. -/
def parseTimeString (timeString : JStr) : ParsedTime :=
  match jsDateParse (cleanTimeStr timeString) with
  | none => ⟨timeString, none, some timeErrMsg⟩
  | some t => ⟨timeString, some t, none⟩

/-! ## parseQRContent -/

/-- One decoded QR record (the object literals built in
src/unnamed/part_000 lines 41-59 and 108-147). -/
structure QRRecord where
  fileName : JStr
  rawContent : Option JStr
  params : List (JStr × JStr)
  parsedTime : Option ParsedTime
  error : Option JStr
  deriving DecidableEq

/-- Error message marker for the catch block of `parseQRContent`. -/
def paramsErrMsg : JStr := "param parse failed".toList

/-- The bare `key=value&...` loop of `parseQRContent` (lines 126-135):
process segments in order; a segment without `=` is skipped; a thrown
`decodeURIComponent` error (second component `true`) aborts the loop,
keeping the assignments made so far. -/
def parseBarePairs : List JStr → List (JStr × JStr) → List (JStr × JStr) × Bool
  | [], m => (m, false)
  | seg :: rest, m =>
    if seg.contains '=' then
      let parts := jsSplitLimit '=' 2 seg
      let k := parts.getD 0 []
      let v := parts.getD 1 []
      match decodeURIComponentJs k with
      | none => (m, true)
      | some dk =>
        match decodeURIComponentJs v with
        | none => (m, true)
        | some dv => parseBarePairs rest (objSet m dk dv)
    else parseBarePairs rest m

/-- The `createTime` post-step of `parseQRContent` (lines 137-140):
attach a `ParsedTime` when the parameter object carries a truthy
(non-empty) `createTime` value. -/
def attachParsedTime (params : List (JStr × JStr)) : Option ParsedTime :=
  match objGet params ctKey with
  | some v => if v = [] then none else some (parseTimeString v)
  | none => none

/-- `QRAnalyzer.parseQRContent` (src/unnamed/part_000 lines 108-147):
if the content has a `?`, parse `content.split('?')[1]` with
`URLSearchParams` (never throws); otherwise, if it has a `=`, run the bare
loop, where a thrown decode error is caught by the surrounding `try` and
recorded on the record; otherwise leave the parameter object empty. -/
def parseQRContent (content fileName : JStr) : QRRecord :=
  if content.contains '?' then
    let paramString := (jsSplit '?' content).getD 1 []
    let params := (parseURLSearchParams paramString).foldl
      (fun m kv => objSet m kv.1 kv.2) []
    ⟨fileName, some content, params, attachParsedTime params, none⟩
  else if content.contains '=' then
    match parseBarePairs (jsSplit '&' content) [] with
    | (params, true) => ⟨fileName, some content, params, none, some paramsErrMsg⟩
    | (params, false) => ⟨fileName, some content, params, attachParsedTime params, none⟩
  else ⟨fileName, some content, [], none, none⟩

/-! ## Time difference analysis -/

/-- One element of the `timesData` array of `analyzeTimeDifferences`. -/
structure TimeEntry where
  fileName : JStr
  timestamp : Int
  deriving DecidableEq

/-- The filter step: records whose `parsedTime` exists and whose `parsed`
Date is non-null (truthy). -/
def validTimes (qrData : List QRRecord) : List TimeEntry :=
  qrData.filterMap fun d =>
    match d.parsedTime with
    | some pt =>
      match pt.timestamp with
      | some t => some ⟨d.fileName, t⟩
      | none => none
    | none => none

/-- Models `Math.round(num / den)` for a positive integer `den`:
floor of the quotient plus one half (JS rounds ties toward positive
infinity). -/
def jsRound (num den : Int) : Int := Int.fdiv (2 * num + den) (2 * den)

/-- The comparator relation of `timesData.sort((a, b) => a.time.timestamp -
b.time.timestamp)`. -/
def timeLe (a b : TimeEntry) : Prop := a.timestamp ≤ b.timestamp

instance : DecidableRel timeLe := fun a b => Int.decLe a.timestamp b.timestamp

/-- One rendered line of the time-difference list (lines 313-330): the
adjacent pair, the millisecond delta, both rounded displays, and which
one the rendered string uses (`diffHours > 0`). -/
structure DeltaEntry where
  fromName : JStr
  toName : JStr
  diffMs : Int
  diffMinutes : Int
  diffHours : Int
  useHours : Bool
  deriving DecidableEq

/-- `QRAnalyzer.analyzeTimeDifferences` (src/unnamed/part_000 lines
295-334): filter to valid times, stable-sort ascending by timestamp
(`Array.prototype.sort` is stable per ES2019, modelled by insertion
sort), and emit one entry per adjacent pair; `none` models the
"insufficient data" message issued when fewer than two valid times
exist. -/
def analyzeTimeDifferences (qrData : List QRRecord) : Option (List DeltaEntry) :=
  let timesData := validTimes qrData
  if timesData.length < 2 then none
  else
    let sorted := List.insertionSort timeLe timesData
    some ((sorted.zip sorted.tail).map fun cn =>
      let diffMs := cn.2.timestamp - cn.1.timestamp
      ⟨cn.1.fileName, cn.2.fileName, diffMs,
        jsRound diffMs 60000, jsRound diffMs 3600000,
        decide (0 < jsRound diffMs 3600000)⟩)

/-! ## Comparison table -/

/-- Models the JS default string `<` (lexicographic by code unit; for the
Basic Multilingual Plane this coincides with comparison of Lean `Char`
scalar values). -/
def jsStrLt : JStr → JStr → Bool
  | [], [] => false
  | [], _ :: _ => true
  | _ :: _, [] => false
  | a :: as, b :: bs => if a < b then true else if b < a then false else jsStrLt as bs

/-- Non-strict JS string comparison, the sortedness relation produced by
`Array.prototype.sort()` with the default comparator. -/
def jsStrLe (a b : JStr) : Prop := jsStrLt b a = false

instance : DecidableRel jsStrLe := fun a b => instDecidableEqBool (jsStrLt b a) false

/-- Models `Set.prototype.add`: append when absent, insertion order kept. -/
def setAdd (acc : List JStr) (k : JStr) : List JStr := if k ∈ acc then acc else acc ++ [k]

/-- The key-union accumulation of `createComparisonResults` (lines 249-252). -/
def allParamsOf (qrData : List QRRecord) : List JStr :=
  qrData.foldl (fun acc d => (objKeys d.params).foldl setAdd acc) []

/-- One row of the comparison table: the parameter name, the value slot of
every record in record order (`data.params[param] || ''`), and the
uniformity flag `values.every(v => v === values[0])`. -/
structure ComparisonRow where
  param : JStr
  values : List JStr
  isUniform : Bool
  deriving DecidableEq

/-- `QRAnalyzer.createComparisonResults` (src/unnamed/part_000 lines
241-293), data content only: `none` models the "need at least 2 QR codes"
message; otherwise one row per key of the sorted key union
(`Array.from(allParams).sort()`). -/
def createComparisonResults (qrData : List QRRecord) : Option (List ComparisonRow) :=
  if qrData.length < 2 then none
  else
    let sortedParams := List.insertionSort jsStrLe (allParamsOf qrData)
    some (sortedParams.map fun p =>
      let values := qrData.map fun d => (objGet d.params p).getD []
      ⟨p, values, values.all fun v => v = values.headD []⟩)

/-! ## Well-formed parameter texts (for the round-trip and exactness claims) -/

/-- A character is safe when it is none of the structural characters of the
query syntax (`?`, `=`, `&`) nor subject to decoding (`%`, `+`). -/
def safeChar (c : Char) : Bool :=
  !(c = '?' || c = '=' || c = '&' || c = '%' || c = '+')

/-- A safe string: every character safe. -/
def safeStr (s : JStr) : Bool := s.all safeChar

/-- Well-formed pair list: every key and value safe. -/
def wfPairs (ps : List (JStr × JStr)) : Bool :=
  ps.all fun kv => safeStr kv.1 && safeStr kv.2

/-- Render one pair as `key=value`. -/
def renderPair (kv : JStr × JStr) : JStr := kv.1 ++ '=' :: kv.2

/-- Join segments with a separator character (no trailing separator). -/
def joinSep (sep : Char) : List JStr → JStr
  | [] => []
  | [s] => s
  | s :: ss => s ++ sep :: joinSep sep ss

/-- The canonical `key=value&key=value&...` text of a pair list. -/
def renderPairs (ps : List (JStr × JStr)) : JStr := joinSep '&' (ps.map renderPair)

/-! ## Lemmas: regex building blocks -/

theorem expectLit_self : ∀ (p r : JStr), expectLit p (p ++ r) = some r
  | [], r => rfl
  | c :: p, r => by rw [List.cons_append, expectLit, if_pos rfl]; exact expectLit_self p r

theorem expectLit_sound {p : JStr} : ∀ {s r : JStr}, expectLit p s = some r → s = p ++ r := by
  induction p with
  | nil => intro s r h; simpa [expectLit] using h
  | cons c p ih =>
    intro s r h
    cases s with
    | nil => simp [expectLit] at h
    | cons c' s =>
      rw [expectLit] at h
      by_cases hc : c' = c
      · rw [if_pos hc] at h
        rw [List.cons_append, hc, ih h]
      · rw [if_neg hc] at h; exact absurd h (by simp)

theorem takeDigits_exact : ∀ {d : JStr} {r : JStr}, d.all Char.isDigit = true →
    takeDigits d.length (d ++ r) = some (d, r) := by
  intro d
  induction d with
  | nil => intro r _; rfl
  | cons c d ih =>
    intro r hall
    rw [List.all_cons, Bool.and_eq_true] at hall
    rw [List.cons_append, List.length_cons, takeDigits, if_pos hall.1, ih hall.2]

theorem takeDigits_exact' {d r : JStr} {n : Nat} (hn : d.length = n)
    (hall : d.all Char.isDigit = true) : takeDigits n (d ++ r) = some (d, r) := by
  subst hn; exact takeDigits_exact hall

theorem takeDigits_sound : ∀ {n : Nat} {s d r : JStr}, takeDigits n s = some (d, r) →
    s = d ++ r ∧ d.length = n ∧ d.all Char.isDigit = true := by
  intro n
  induction n with
  | zero =>
    intro s d r h
    rw [takeDigits, Option.some_inj] at h
    have h1 : ([] : JStr) = d := congrArg Prod.fst h
    have h2 : s = r := congrArg Prod.snd h
    subst h2
    rw [← h1]
    exact ⟨rfl, rfl, rfl⟩
  | succ n ih =>
    intro s d r h
    cases s with
    | nil => rw [takeDigits] at h; exact absurd h (by simp)
    | cons c s =>
      rw [takeDigits] at h
      by_cases hc : c.isDigit
      · rw [if_pos hc] at h
        cases hh : takeDigits n s with
        | none => rw [hh] at h; exact absurd h (by simp)
        | some p =>
          obtain ⟨d0, r0⟩ := p
          rw [hh, Option.some_inj] at h
          have h1 : c :: d0 = d := congrArg Prod.fst h
          have h2 : r0 = r := congrArg Prod.snd h
          obtain ⟨hs, hlen, hall⟩ := ih hh
          subst h2; rw [← h1]
          subst hs
          exact ⟨rfl, by simp [hlen], by simp [List.all_cons, hc, hall]⟩
      · rw [if_neg hc] at h; exact absurd h (by simp)

theorem expectChar_self (c : Char) (r : JStr) : expectChar c (c :: r) = some r := by
  rw [expectChar, if_pos rfl]

theorem expectChar_sound {c : Char} {s r : JStr} (h : expectChar c s = some r) : s = c :: r := by
  cases s with
  | nil => exact absurd h (by simp [expectChar])
  | cons c' s =>
    rw [expectChar] at h
    by_cases hc : c' = c
    · rw [if_pos hc] at h
      rw [hc, Option.some_inj.mp h]
    · rw [if_neg hc] at h; exact absurd h (by simp)

theorem expectSep_mk {sp : Char} (hsp : sp = ' ' ∨ sp = 'T') (r : JStr) :
    expectSep (sp :: r) = some (sp, r) := by
  rw [expectSep, if_pos hsp]

theorem expectSep_sound {s r : JStr} {sp : Char} (h : expectSep s = some (sp, r)) :
    s = sp :: r ∧ (sp = ' ' ∨ sp = 'T') := by
  cases s with
  | nil => exact absurd h (by simp [expectSep])
  | cons c s =>
    rw [expectSep] at h
    by_cases hc : c = ' ' ∨ c = 'T'
    · rw [if_pos hc, Option.some_inj] at h
      have h1 : c = sp := congrArg Prod.fst h
      have h2 : s = r := congrArg Prod.snd h
      subst h1; subst h2
      exact ⟨rfl, hc⟩
    · rw [if_neg hc] at h; exact absurd h (by simp)

theorem matchPat_construct {y mo d h mi se tl : JStr} {sp : Char}
    (hy : y.length = 4) (hyd : y.all Char.isDigit = true)
    (hmo : mo.length = 2) (hmod : mo.all Char.isDigit = true)
    (hd : d.length = 2) (hdd : d.all Char.isDigit = true)
    (hsp : sp = ' ' ∨ sp = 'T')
    (hh : h.length = 2) (hhd : h.all Char.isDigit = true)
    (hmi : mi.length = 2) (hmid : mi.all Char.isDigit = true)
    (hse : se.length = 2) (hsed : se.all Char.isDigit = true) :
    matchPat (ctEq ++ (y ++ '-' :: (mo ++ '-' :: (d ++ sp :: (h ++ ':' ::
      (mi ++ ':' :: (se ++ tl))))))) =
      some ⟨y ++ '-' :: (mo ++ '-' :: d), sp, h, ':' :: (mi ++ ':' :: se), tl⟩ := by
  simp only [matchPat, Option.bind_eq_bind', expectLit_self, Option.some_bind,
    takeDigits_exact' hy hyd, expectChar_self, takeDigits_exact' hmo hmod,
    takeDigits_exact' hd hdd, expectSep_mk hsp, takeDigits_exact' hh hhd,
    takeDigits_exact' hmi hmid, takeDigits_exact' hse hsed, Option.pure_def]
  simp [List.append_assoc, List.cons_append]

theorem matchPat_complete {m : TimeMatch} (hv : validMatch m) :
    matchPat (spanOf m ++ m.tail) = some m := by
  obtain ⟨⟨y, mo, d, hdp, hy, hyd, hmo, hmod, hd, hdd⟩, hsp, hh, hhd,
    mi, se, hrest, hmi, hmid, hse, hsed⟩ := hv
  obtain ⟨dp, sp, h, rest, tl⟩ := m
  simp only at hdp hrest hsp hh hhd
  subst hdp; subst hrest
  have hc := @matchPat_construct y mo d h mi se tl sp hy hyd hmo hmod hd hdd hsp hh hhd
    hmi hmid hse hsed
  rw [← hc]
  congr 1
  simp [spanOf]

theorem matchPat_sound {s : JStr} {m : TimeMatch} (hm : matchPat s = some m) :
    s = spanOf m ++ m.tail ∧ validMatch m := by
  simp only [matchPat, Option.bind_eq_bind', Option.bind_eq_some', Option.pure_def,
    Option.some_inj] at hm
  obtain ⟨s1, h1, ⟨y, s2⟩, h2, s3, h3, ⟨mo, s4⟩, h4, s5, h5, ⟨d, s6⟩, h6,
    ⟨sp, s7⟩, h7, ⟨h, s8⟩, h8, s9, h9, ⟨mi, s10⟩, h10, s11, h11, ⟨se, s12⟩, h12, hm⟩ := hm
  have e1 := expectLit_sound h1
  obtain ⟨e2, hy, hyd⟩ := takeDigits_sound h2
  have e3 := expectChar_sound h3
  obtain ⟨e4, hmo, hmod⟩ := takeDigits_sound h4
  have e5 := expectChar_sound h5
  obtain ⟨e6, hd, hdd⟩ := takeDigits_sound h6
  obtain ⟨e7, hsp⟩ := expectSep_sound h7
  obtain ⟨e8, hh, hhd⟩ := takeDigits_sound h8
  have e9 := expectChar_sound h9
  obtain ⟨e10, hmi, hmid⟩ := takeDigits_sound h10
  have e11 := expectChar_sound h11
  obtain ⟨e12, hse, hsed⟩ := takeDigits_sound h12
  subst hm
  constructor
  · subst e1 e2 e3 e4 e5 e6 e7 e8 e9 e10 e11 e12
    simp [spanOf]
  · exact ⟨⟨y, mo, d, by simp, hy, hyd, hmo, hmod, hd, hdd⟩, hsp, hh, hhd,
      mi, se, by simp, hmi, hmid, hse, hsed⟩

theorem spanOf_length {m : TimeMatch} (hv : validMatch m) : (spanOf m).length = 30 := by
  obtain ⟨⟨y, mo, d, hdp, hy, _, hmo, _, hd, _⟩, _, hh, _, mi, se, hrest, hmi, _, hse, _⟩ := hv
  simp [spanOf, hdp, hrest, ctEq, hy, hmo, hd, hh, hmi, hse]

/-! ## Lemmas: the mutator scan -/

theorem matchPat_nil : matchPat ([] : JStr) = none := rfl

theorem modifyGo_none_iff (t : JStr) : modifyGo t = none ↔ ∀ i, matchPat (t.drop i) = none := by
  induction t with
  | nil =>
    simp only [modifyGo, List.drop_nil, true_iff]
    intro i
    exact matchPat_nil
  | cons c s ih =>
    constructor
    · intro h i
      rw [modifyGo] at h
      cases hm : matchPat (c :: s) with
      | some m => rw [hm] at h; exact absurd h (by simp)
      | none =>
        rw [hm] at h
        simp only [Option.map_eq_none'] at h
        cases i with
        | zero => exact hm
        | succ i => exact (ih.mp h) i
    · intro h
      have h0 : matchPat (c :: s) = none := by
        have := h 0
        rwa [List.drop_zero] at this
      have hs : modifyGo s = none := ih.mpr fun i => h (i + 1)
      rw [modifyGo, h0, hs]
      rfl

theorem modifyGo_some_decomp {t out : JStr} (h : modifyGo t = some out) :
    ∃ (i : Nat) (m : TimeMatch), (∀ j < i, matchPat (t.drop j) = none) ∧
      matchPat (t.drop i) = some m ∧ validMatch m ∧
      t.take i ++ spanOf m ++ m.tail = t ∧
      out = t.take i ++ replacement m ++ m.tail := by
  induction t generalizing out with
  | nil => exact absurd h (by simp [modifyGo])
  | cons c s ih =>
    rw [modifyGo] at h
    cases hm : matchPat (c :: s) with
    | some m =>
      rw [hm] at h
      obtain ⟨hspan, hv⟩ := matchPat_sound hm
      refine ⟨0, m, by omega, hm, hv, ?_, ?_⟩
      · simpa using hspan.symm
      · simpa using (Option.some_inj.mp h).symm
    | none =>
      rw [hm] at h
      simp only [Option.map_eq_some'] at h
      obtain ⟨out', hout', hcons⟩ := h
      obtain ⟨i, m, hmin, hmp, hv, heq, hrepl⟩ := ih hout'
      refine ⟨i + 1, m, ?_, hmp, hv, ?_, ?_⟩
      · intro j hj
        cases j with
        | zero => exact hm
        | succ j => exact hmin j (by omega)
      · simpa using heq
      · rw [← hcons, hrepl]; rfl

theorem modifyGo_isSome_eq_hasMatch (t : JStr) : (modifyGo t).isSome = hasMatch t := by
  induction t with
  | nil => rfl
  | cons c s ih =>
    rw [modifyGo, hasMatch]
    cases hm : matchPat (c :: s) with
    | some m => simp [hm]
    | none => simp [hm, ← ih]

theorem modify_eq_self_of_hasMatch_false {t : JStr} (h : hasMatch t = false) :
    modifyCreateTime t = t := by
  have h1 : (modifyGo t).isSome = false := by rw [modifyGo_isSome_eq_hasMatch, h]
  have hnone : modifyGo t = none := Option.not_isSome_iff_eq_none.mp (by simp [h1])
  rw [modifyCreateTime, hnone]
  rfl

theorem digitsToNat_padStart2_toDigits : ∀ n < 24, digitsToNat (padStart2 (Nat.toDigits 10 n)) = n := by decide

theorem bumpHour_ne (h : JStr) : bumpHour h ≠ h := by
  intro heq
  have hlt : (digitsToNat h + 1) % 24 < 24 := Nat.mod_lt _ (by norm_num)
  have hval : digitsToNat (bumpHour h) = (digitsToNat h + 1) % 24 :=
    digitsToNat_padStart2_toDigits _ hlt
  rw [heq] at hval
  omega

theorem bumpHour_length (h : JStr) : (bumpHour h).length = 2 := by
  have hg : ∀ n < 24, (padStart2 (Nat.toDigits 10 n)).length = 2 := by decide
  exact hg _ (Nat.mod_lt _ (by norm_num))

/-! ## Claim theorems: the Time Mutator -/

/-- C1: for every text in which the Time Mutator's pattern (literal
`createTime=`, a `NNNN-NN-NN` date, one space-or-`T` separator, a two-digit
hour, then `:NN:NN`) matches, the result equals the input with only the
first matched span replaced: the hour is parsed as an integer, incremented
by 1 modulo 24 (see `bumpHour`: 23 wraps to 00 and the date component is
untouched), re-zero-padded to two digits, and reassembled as
`createTime=` + date + separator + newHour + suffix (`replacement`); every
other character (the prefix `text.take i` and the tail `m.tail`) is
identical to the input. -/
theorem c1_mutator_replaces_first_match (text : JStr) (hm : hasMatch text = true) :
    ∃ (i : Nat) (m : TimeMatch),
      (∀ j < i, matchPat (text.drop j) = none) ∧
      matchPat (text.drop i) = some m ∧ validMatch m ∧
      text = text.take i ++ spanOf m ++ m.tail ∧
      modifyCreateTime text = text.take i ++ replacement m ++ m.tail := by
  have hsome : (modifyGo text).isSome = true := by
    rw [modifyGo_isSome_eq_hasMatch]; exact hm
  obtain ⟨out, hout⟩ := Option.isSome_iff_exists.mp hsome
  obtain ⟨i, m, hmin, hmp, hv, heq, hrepl⟩ := modifyGo_some_decomp hout
  refine ⟨i, m, hmin, hmp, hv, heq.symm, ?_⟩
  rw [modifyCreateTime, hout]
  exact hrepl

/-- Witness for C1 at the concrete text `u=9&createTime=2024-12-31 23:59:59`
(the 23 hour wraps to 00 while the date stays 2024-12-31). -/
theorem c1_witness :
    hasMatch "u=9&createTime=2024-12-31 23:59:59".toList = true ∧
    (∃ (i : Nat) (m : TimeMatch),
      (∀ j < i, matchPat (("u=9&createTime=2024-12-31 23:59:59".toList).drop j) = none) ∧
      matchPat (("u=9&createTime=2024-12-31 23:59:59".toList).drop i) = some m ∧
      validMatch m ∧
      "u=9&createTime=2024-12-31 23:59:59".toList =
        ("u=9&createTime=2024-12-31 23:59:59".toList).take i ++ spanOf m ++ m.tail ∧
      modifyCreateTime "u=9&createTime=2024-12-31 23:59:59".toList =
        ("u=9&createTime=2024-12-31 23:59:59".toList).take i ++ replacement m ++ m.tail) :=
  ⟨by decide, c1_mutator_replaces_first_match _ (by decide)⟩

/-- C9: for every text in which the pattern does not match, the mutator
returns the original text unchanged (a normal outcome; the callers read
`modifiedText === originalText` as `changed: false`), and indeed no
position of the text carries a match. -/
theorem c9_no_match_is_noop (text : JStr) (h : hasMatch text = false) :
    modifyCreateTime text = text ∧ (∀ i, matchPat (text.drop i) = none) := by
  constructor
  · exact modify_eq_self_of_hasMatch_false h
  · have h1 : (modifyGo text).isSome = false := by rw [modifyGo_isSome_eq_hasMatch, h]
    exact (modifyGo_none_iff text).mp (Option.not_isSome_iff_eq_none.mp (by simp [h1]))

/-- Witness for C9 at the concrete text `no such field here`. -/
theorem c9_witness :
    modifyCreateTime "no such field here".toList = "no such field here".toList :=
  (c9_no_match_is_noop _ (by decide)).1

/-- C10 (implicit): the mutated text differs from the input exactly when the
pattern matches somewhere, because the bumped hour `(h + 1) % 24` never
re-reads as the old hour string; hence the callers' change detection by
string equality (src/base_script.js lines 39-43, src/unnamed/part_001
lines 48-58) is sound. -/
theorem c10_change_detection_sound (text : JStr) :
    modifyCreateTime text ≠ text ↔ hasMatch text = true := by
  constructor
  · intro hne
    cases hcase : hasMatch text with
    | true => rfl
    | false => exact absurd (modify_eq_self_of_hasMatch_false hcase) hne
  · intro hm
    have hsome : (modifyGo text).isSome = true := by
      rw [modifyGo_isSome_eq_hasMatch]; exact hm
    obtain ⟨out, hout⟩ := Option.isSome_iff_exists.mp hsome
    obtain ⟨i, m, hmin, hmp, hv, heq, hrepl⟩ := modifyGo_some_decomp hout
    have hmct : modifyCreateTime text = text.take i ++ replacement m ++ m.tail := by
      rw [modifyCreateTime, hout]; exact hrepl
    rw [hmct]
    intro hbad
    have hbad2 : text.take i ++ replacement m ++ m.tail =
        text.take i ++ spanOf m ++ m.tail := hbad.trans heq.symm
    have h3 : replacement m = spanOf m :=
      List.append_cancel_left (List.append_cancel_right hbad2)
    simp only [replacement, spanOf, List.append_assoc, List.cons_append] at h3
    have h4 := List.append_cancel_left h3
    have h5 := List.append_cancel_left h4
    injection h5 with h5a h6
    have h7 := List.append_cancel_right h6
    exact bumpHour_ne m.hourStr h7

/-! ## Claim theorems: the Time Field Interpreter -/

/-- C8: the time interpreter never raises (it is a total function whose
failure mode is data): for every raw string whose normalization (`T`/`Z`
to spaces, trim) does not parse as a valid calendar instant it returns an
invalid result with no instant and an error marker; for every raw string
that does parse it returns the instant as epoch milliseconds with no
error; in both cases the original raw string is preserved. -/
theorem c8_time_interpreter_total (raw : JStr) :
    (parseTimeString raw).original = raw ∧
    (jsDateParse (cleanTimeStr raw) = none →
      (parseTimeString raw).timestamp = none ∧ (parseTimeString raw).error.isSome = true) ∧
    (∀ t : Int, jsDateParse (cleanTimeStr raw) = some t →
      (parseTimeString raw).timestamp = some t ∧ (parseTimeString raw).error = none) := by
  refine ⟨?_, ?_, ?_⟩
  · cases h : jsDateParse (cleanTimeStr raw) <;> simp [parseTimeString, h]
  · intro h; simp [parseTimeString, h]
  · intro t ht; simp [parseTimeString, ht]

/-- Witness for C8 at `2024-03-15T10:30:00` (valid) and `not-a-time`
(invalid). -/
theorem c8_witness :
    (parseTimeString "2024-03-15T10:30:00".toList).timestamp = some 1710498600000 ∧
    (parseTimeString "2024-03-15T10:30:00".toList).error = none ∧
    (parseTimeString "not-a-time".toList).timestamp = none ∧
    (parseTimeString "not-a-time".toList).error.isSome = true := by
  have hok := (c8_time_interpreter_total "2024-03-15T10:30:00".toList).2.2
    1710498600000 (by decide)
  have hbad := (c8_time_interpreter_total "not-a-time".toList).2.1 (by decide)
  exact ⟨hok.1, hok.2, hbad.1, hbad.2⟩

/-! ## Claim theorems: the 150-minute delta (C4) -/

/-- C4 counterexample: with createTime values `2024-01-01 10:00:00` and
`2024-01-01 12:30:00` (a 150-minute difference) the code produces exactly
one delta entry whose hour display is `Math.round(2.5) = 3`, so it reports
"3 hours", not "2 hours" as the claim states. -/
theorem c4_counterexample :
    ((analyzeTimeDifferences
      [parseQRContent "createTime=2024-01-01 10:00:00".toList "a".toList,
       parseQRContent "createTime=2024-01-01 12:30:00".toList "b".toList]).map
      (List.map DeltaEntry.diffHours) = some [3]) ∧
    ¬ ((analyzeTimeDifferences
      [parseQRContent "createTime=2024-01-01 10:00:00".toList "a".toList,
       parseQRContent "createTime=2024-01-01 12:30:00".toList "b".toList]).map
      (List.map DeltaEntry.diffHours) = some [2]) := by
  constructor
  · decide
  · decide

/-- C4 amended: given exactly the two records above, the comparison builder
produces exactly one time-delta entry: delta 9000000 ms, whole minutes
150, whole hours 3 (JS `Math.round` rounds the tie 2.5 up), displayed in
hours. -/
theorem c4_amended :
    analyzeTimeDifferences
      [parseQRContent "createTime=2024-01-01 10:00:00".toList "a".toList,
       parseQRContent "createTime=2024-01-01 12:30:00".toList "b".toList] =
    some [⟨"a".toList, "b".toList, 9000000, 150, 3, true⟩] := by decide

/-! ## Lemmas: the time-delta sort -/

instance : IsTotal TimeEntry timeLe := ⟨fun a b => Int.le_total a.timestamp b.timestamp⟩

instance : IsTrans TimeEntry timeLe :=
  ⟨fun _ _ _ hab hbc => le_trans (α := Int) hab hbc⟩

theorem filter_orderedInsert_timestamp (a : TimeEntry) (l : List TimeEntry) (t : Int) :
    (List.orderedInsert timeLe a l).filter (fun e => decide (e.timestamp = t)) =
      if a.timestamp = t then a :: l.filter (fun e => decide (e.timestamp = t))
      else l.filter (fun e => decide (e.timestamp = t)) := by
  induction l with
  | nil =>
    by_cases h : a.timestamp = t <;> simp [List.orderedInsert, h]
  | cons b l ih =>
    rw [List.orderedInsert]
    by_cases hr : timeLe a b
    · rw [if_pos hr]
      by_cases h : a.timestamp = t <;> simp [List.filter_cons, h]
    · rw [if_neg hr]
      have hlt : b.timestamp < a.timestamp := not_le.mp hr
      by_cases h : a.timestamp = t
      · have hbt : ¬ b.timestamp = t := by omega
        simp [List.filter_cons, h, hbt, ih]
      · by_cases hb : b.timestamp = t <;> simp [List.filter_cons, h, hb, ih]

theorem filter_insertionSort_timestamp (l : List TimeEntry) (t : Int) :
    (List.insertionSort timeLe l).filter (fun e => decide (e.timestamp = t)) =
      l.filter (fun e => decide (e.timestamp = t)) := by
  induction l with
  | nil => rfl
  | cons a l ih =>
    rw [List.insertionSort, filter_orderedInsert_timestamp]
    by_cases h : a.timestamp = t <;> simp [List.filter_cons, h, ih]

theorem sorted_rel_zip_tail {l : List TimeEntry} (hs : List.Sorted timeLe l) :
    ∀ p ∈ l.zip l.tail, timeLe p.1 p.2 := by
  induction l with
  | nil => simp
  | cons a l ih =>
    cases l with
    | nil => simp
    | cons b l' =>
      intro p hp
      obtain ⟨ha, hs'⟩ := List.sorted_cons.mp hs
      have hzip : (a :: b :: l').zip (a :: b :: l').tail =
          (a, b) :: ((b :: l').zip (b :: l').tail) := rfl
      rw [hzip] at hp
      rcases List.mem_cons.mp hp with h | h
      · subst h
        exact ha b (List.mem_cons_self b l')
      · exact ih hs' p h

theorem jsRound_nonneg {n : Int} (hn : 0 ≤ n) {d : Int} (hd : 0 < d) : 0 ≤ jsRound n d :=
  Int.fdiv_nonneg (by omega) (by omega)

/-- C3: the time-delta section filters to records with a valid parsed time,
sorts them ascending by instant with a stable sort (ties keep original
record order, stated as: filtering the sorted list to any fixed instant
value returns exactly the original-order sublist), and emits one entry per
temporally adjacent pair with `delta = nextInstant - currentInstant` in
milliseconds, displayed in whole hours when `round(delta / 3600000)` is
nonzero and otherwise in whole minutes `round(delta / 60000)` (the code
tests `diffHours > 0`, which on the nonnegative post-sort deltas is
exactly "nonzero"). -/
theorem c3_time_deltas (qrData : List QRRecord) (h2 : 2 ≤ (validTimes qrData).length) :
    ∃ sorted : List TimeEntry,
      sorted.Perm (validTimes qrData) ∧
      List.Sorted timeLe sorted ∧
      (∀ t : Int, sorted.filter (fun e => decide (e.timestamp = t)) =
        (validTimes qrData).filter (fun e => decide (e.timestamp = t))) ∧
      analyzeTimeDifferences qrData =
        some ((sorted.zip sorted.tail).map fun cn =>
          ⟨cn.1.fileName, cn.2.fileName, cn.2.timestamp - cn.1.timestamp,
            jsRound (cn.2.timestamp - cn.1.timestamp) 60000,
            jsRound (cn.2.timestamp - cn.1.timestamp) 3600000,
            decide (jsRound (cn.2.timestamp - cn.1.timestamp) 3600000 ≠ 0)⟩) := by
  refine ⟨List.insertionSort timeLe (validTimes qrData), List.perm_insertionSort _ _,
    List.sorted_insertionSort _ _, fun t => filter_insertionSort_timestamp _ t, ?_⟩
  have hif : ¬ ((validTimes qrData).length < 2) := by omega
  simp only [analyzeTimeDifferences, hif, if_false, Option.some_inj]
  apply List.map_congr_left
  intro p hp
  have hle : timeLe p.1 p.2 :=
    sorted_rel_zip_tail (List.sorted_insertionSort timeLe (validTimes qrData)) p hp
  have hle' : p.1.timestamp ≤ p.2.timestamp := hle
  have hr0 : 0 ≤ jsRound (p.2.timestamp - p.1.timestamp) 3600000 :=
    jsRound_nonneg (by omega) (by norm_num)
  have hdec : decide (0 < jsRound (p.2.timestamp - p.1.timestamp) 3600000) =
      decide (jsRound (p.2.timestamp - p.1.timestamp) 3600000 ≠ 0) := by
    apply decide_eq_decide.mpr
    omega
  rw [hdec]

/-- Witness for C3 at two concrete records 61 minutes apart. -/
theorem c3_witness :
    ∃ sorted : List TimeEntry,
      sorted.Perm (validTimes
        [⟨"a".toList, none, [], some ⟨"t1".toList, some 3660000, none⟩, none⟩,
         ⟨"b".toList, none, [], some ⟨"t2".toList, some 0, none⟩, none⟩]) ∧
      List.Sorted timeLe sorted ∧
      (∀ t : Int, sorted.filter (fun e => decide (e.timestamp = t)) =
        (validTimes
          [⟨"a".toList, none, [], some ⟨"t1".toList, some 3660000, none⟩, none⟩,
           ⟨"b".toList, none, [], some ⟨"t2".toList, some 0, none⟩, none⟩]).filter
          (fun e => decide (e.timestamp = t))) ∧
      analyzeTimeDifferences
        [⟨"a".toList, none, [], some ⟨"t1".toList, some 3660000, none⟩, none⟩,
         ⟨"b".toList, none, [], some ⟨"t2".toList, some 0, none⟩, none⟩] =
        some ((sorted.zip sorted.tail).map fun cn =>
          ⟨cn.1.fileName, cn.2.fileName, cn.2.timestamp - cn.1.timestamp,
            jsRound (cn.2.timestamp - cn.1.timestamp) 60000,
            jsRound (cn.2.timestamp - cn.1.timestamp) 3600000,
            decide (jsRound (cn.2.timestamp - cn.1.timestamp) 3600000 ≠ 0)⟩) :=
  c3_time_deltas _ (by decide)

/-! ## Lemmas: lexicographic key order and the key union -/

theorem jsStrLt_irrefl : ∀ a : JStr, jsStrLt a a = false := by
  intro a
  induction a with
  | nil => rfl
  | cons c a ih => simp [jsStrLt, lt_irrefl, ih]

theorem jsStrLt_trans : ∀ a b c : JStr, jsStrLt a b = true → jsStrLt b c = true →
    jsStrLt a c = true := by
  intro a
  induction a with
  | nil =>
    intro b c hab hbc
    cases b with
    | nil => simp [jsStrLt] at hab
    | cons bh bt =>
      cases c with
      | nil => simp [jsStrLt] at hbc
      | cons ch ct => rfl
  | cons ah at' ih =>
    intro b c hab hbc
    cases b with
    | nil => simp [jsStrLt] at hab
    | cons bh bt =>
      cases c with
      | nil => simp [jsStrLt] at hbc
      | cons ch ct =>
        rw [jsStrLt] at hab hbc ⊢
        rcases lt_trichotomy ah bh with h1 | h1 | h1
        · rcases lt_trichotomy bh ch with h2 | h2 | h2
          · rw [if_pos (lt_trans h1 h2)]
          · subst h2; rw [if_pos h1]
          · rw [if_neg (lt_asymm h2), if_pos h2] at hbc
            exact absurd hbc (by simp)
        · subst h1
          rw [if_neg (lt_irrefl _), if_neg (lt_irrefl _)] at hab
          rcases lt_trichotomy ah ch with h2 | h2 | h2
          · rw [if_pos h2]
          · subst h2
            rw [if_neg (lt_irrefl _), if_neg (lt_irrefl _)] at hbc ⊢
            exact ih bt ct hab hbc
          · rw [if_neg (lt_asymm h2), if_pos h2] at hbc
            exact absurd hbc (by simp)
        · rw [if_neg (lt_asymm h1), if_pos h1] at hab
          exact absurd hab (by simp)

theorem jsStrLt_asymm {a b : JStr} (h : jsStrLt a b = true) : jsStrLt b a = false := by
  cases hbb : jsStrLt b a with
  | false => rfl
  | true =>
    have htr := jsStrLt_trans a b a h hbb
    rw [jsStrLt_irrefl] at htr
    exact absurd htr (by simp)

theorem jsStrLt_connex (a b : JStr) : jsStrLt a b = true ∨ jsStrLt b a = true ∨ a = b := by
  induction a generalizing b with
  | nil =>
    cases b with
    | nil => exact Or.inr (Or.inr rfl)
    | cons bh bt => exact Or.inl rfl
  | cons ah at' ih =>
    cases b with
    | nil => exact Or.inr (Or.inl rfl)
    | cons bh bt =>
      rcases lt_trichotomy ah bh with h | h | h
      · exact Or.inl (by rw [jsStrLt, if_pos h])
      · subst h
        rcases ih bt with h' | h' | h'
        · exact Or.inl (by rw [jsStrLt, if_neg (lt_irrefl _), if_neg (lt_irrefl _)]; exact h')
        · exact Or.inr (Or.inl
            (by rw [jsStrLt, if_neg (lt_irrefl _), if_neg (lt_irrefl _)]; exact h'))
        · exact Or.inr (Or.inr (by rw [h']))
      · exact Or.inr (Or.inl (by rw [jsStrLt, if_pos h]))

instance : IsTotal JStr jsStrLe := ⟨fun a b => by
  unfold jsStrLe
  rcases jsStrLt_connex a b with h | h | h
  · exact Or.inl (jsStrLt_asymm h)
  · exact Or.inr (jsStrLt_asymm h)
  · subst h
    exact Or.inl (jsStrLt_irrefl a)⟩

instance : IsTrans JStr jsStrLe := ⟨fun a b c hab hbc => by
  unfold jsStrLe at hab hbc ⊢
  cases hca : jsStrLt c a with
  | false => rfl
  | true =>
    rcases jsStrLt_connex b a with h | h | h
    · rw [h] at hab; exact absurd hab (by simp)
    · have htr := jsStrLt_trans c a b hca h
      rw [htr] at hbc
      exact absurd hbc (by simp)
    · subst h
      rw [hca] at hbc
      exact absurd hbc (by simp)⟩

theorem mem_setAdd {acc : List JStr} {k a : JStr} : a ∈ setAdd acc k ↔ a ∈ acc ∨ a = k := by
  unfold setAdd
  by_cases h : k ∈ acc
  · rw [if_pos h]
    constructor
    · exact Or.inl
    · rintro (h' | rfl)
      · exact h'
      · exact h
  · rw [if_neg h]
    simp

theorem nodup_setAdd {acc : List JStr} (h : acc.Nodup) (k : JStr) : (setAdd acc k).Nodup := by
  unfold setAdd
  by_cases hk : k ∈ acc
  · rw [if_pos hk]; exact h
  · rw [if_neg hk]
    simp [List.nodup_append, h, hk]

theorem mem_foldl_setAdd (ks : List JStr) (acc : List JStr) (a : JStr) :
    a ∈ ks.foldl setAdd acc ↔ a ∈ acc ∨ a ∈ ks := by
  induction ks generalizing acc with
  | nil => simp
  | cons k ks ih =>
    rw [List.foldl_cons, ih]
    simp [mem_setAdd, List.mem_cons]
    tauto

theorem nodup_foldl_setAdd (ks : List JStr) (acc : List JStr) (h : acc.Nodup) :
    (ks.foldl setAdd acc).Nodup := by
  induction ks generalizing acc with
  | nil => exact h
  | cons k ks ih => exact ih _ (nodup_setAdd h k)

theorem mem_allParamsOf (qrData : List QRRecord) (a : JStr) :
    a ∈ allParamsOf qrData ↔ ∃ d ∈ qrData, a ∈ objKeys d.params := by
  unfold allParamsOf
  suffices h : ∀ acc : List JStr,
      (a ∈ qrData.foldl (fun acc d => (objKeys d.params).foldl setAdd acc) acc ↔
        a ∈ acc ∨ ∃ d ∈ qrData, a ∈ objKeys d.params) by
    simpa using h []
  induction qrData with
  | nil => intro acc; simp
  | cons r rs ih =>
    intro acc
    rw [List.foldl_cons, ih]
    rw [mem_foldl_setAdd]
    simp [List.mem_cons]
    tauto

theorem nodup_allParamsOf (qrData : List QRRecord) : (allParamsOf qrData).Nodup := by
  unfold allParamsOf
  suffices h : ∀ acc : List JStr, acc.Nodup →
      (qrData.foldl (fun acc d => (objKeys d.params).foldl setAdd acc) acc).Nodup from
    h [] List.nodup_nil
  induction qrData with
  | nil => intro acc h; exact h
  | cons r rs ih => intro acc h; exact ih _ (nodup_foldl_setAdd _ _ h)

/-- C6: for every batch of at least two records, the comparison table has
one row per key of the set union of all records' parameter keys, iterated
in lexicographic key order (`jsStrLe`, the JS default string sort) with no
duplicates; each row's value sequence has one slot per record in record
order with the empty string standing in for a record lacking the key
(`(objGet d.params k).getD []`, the code's `data.params[param] || ''`);
and a row is flagged non-uniform exactly when not all of its values equal
the first value. -/
theorem c6_comparison_rows (qrData : List QRRecord) (h2 : 2 ≤ qrData.length) :
    ∃ rows : List ComparisonRow,
      createComparisonResults qrData = some rows ∧
      List.Sorted jsStrLe (rows.map ComparisonRow.param) ∧
      (rows.map ComparisonRow.param).Nodup ∧
      (∀ k : JStr, k ∈ rows.map ComparisonRow.param ↔ ∃ d ∈ qrData, k ∈ objKeys d.params) ∧
      ∀ row ∈ rows,
        row.values = qrData.map (fun d => (objGet d.params row.param).getD []) ∧
        (row.isUniform = false ↔ ¬ (∀ v ∈ row.values, v = row.values.headD [])) := by
  have hif : ¬ (qrData.length < 2) := by omega
  refine ⟨(List.insertionSort jsStrLe (allParamsOf qrData)).map fun p =>
      ⟨p, qrData.map fun d => (objGet d.params p).getD [],
        (qrData.map fun d => (objGet d.params p).getD []).all
          fun v => v = (qrData.map fun d => (objGet d.params p).getD []).headD []⟩,
    ?_, ?_, ?_, ?_, ?_⟩
  · simp only [createComparisonResults, hif, if_false]
  · have hmap : ((List.insertionSort jsStrLe (allParamsOf qrData)).map fun p =>
        (⟨p, qrData.map fun d => (objGet d.params p).getD [],
          (qrData.map fun d => (objGet d.params p).getD []).all
            fun v => v = (qrData.map fun d => (objGet d.params p).getD []).headD []⟩ :
          ComparisonRow)).map ComparisonRow.param =
        List.insertionSort jsStrLe (allParamsOf qrData) := by
      rw [List.map_map]
      exact List.map_id _
    rw [hmap]
    exact List.sorted_insertionSort jsStrLe (allParamsOf qrData)
  · have hmap : ((List.insertionSort jsStrLe (allParamsOf qrData)).map fun p =>
        (⟨p, qrData.map fun d => (objGet d.params p).getD [],
          (qrData.map fun d => (objGet d.params p).getD []).all
            fun v => v = (qrData.map fun d => (objGet d.params p).getD []).headD []⟩ :
          ComparisonRow)).map ComparisonRow.param =
        List.insertionSort jsStrLe (allParamsOf qrData) := by
      rw [List.map_map]
      exact List.map_id _
    rw [hmap]
    exact (List.perm_insertionSort jsStrLe (allParamsOf qrData)).nodup_iff.mpr
      (nodup_allParamsOf qrData)
  · intro k
    have hmap : ((List.insertionSort jsStrLe (allParamsOf qrData)).map fun p =>
        (⟨p, qrData.map fun d => (objGet d.params p).getD [],
          (qrData.map fun d => (objGet d.params p).getD []).all
            fun v => v = (qrData.map fun d => (objGet d.params p).getD []).headD []⟩ :
          ComparisonRow)).map ComparisonRow.param =
        List.insertionSort jsStrLe (allParamsOf qrData) := by
      rw [List.map_map]
      exact List.map_id _
    rw [hmap, (List.perm_insertionSort jsStrLe (allParamsOf qrData)).mem_iff]
    exact mem_allParamsOf qrData k
  · intro row hrow
    obtain ⟨p, hp, hpe⟩ := List.mem_map.mp hrow
    subst hpe
    refine ⟨rfl, ?_⟩
    simp only [Bool.eq_false_iff, ne_eq, List.all_eq_true, decide_eq_true_eq]

/-- Witness for C6 at two records parsed from `b=1&a=x` and `a=y&c=3`. -/
theorem c6_witness :
    ∃ rows : List ComparisonRow,
      createComparisonResults
        [parseQRContent "b=1&a=x".toList "f1".toList,
         parseQRContent "a=y&c=3".toList "f2".toList] = some rows ∧
      List.Sorted jsStrLe (rows.map ComparisonRow.param) ∧
      (rows.map ComparisonRow.param).Nodup ∧
      (∀ k : JStr, k ∈ rows.map ComparisonRow.param ↔
        ∃ d ∈ [parseQRContent "b=1&a=x".toList "f1".toList,
          parseQRContent "a=y&c=3".toList "f2".toList], k ∈ objKeys d.params) ∧
      ∀ row ∈ rows,
        row.values = [parseQRContent "b=1&a=x".toList "f1".toList,
          parseQRContent "a=y&c=3".toList "f2".toList].map
          (fun d => (objGet d.params row.param).getD []) ∧
        (row.isUniform = false ↔ ¬ (∀ v ∈ row.values, v = row.values.headD [])) :=
  c6_comparison_rows _ (by decide)

/-! ## Lemmas: splitting and joining -/

theorem jsSplit_ne_nil (sep : Char) : ∀ s : JStr, jsSplit sep s ≠ []
  | [] => by simp [jsSplit]
  | c :: s => by
    rw [jsSplit]
    cases h : jsSplit sep s with
    | nil => simp
    | cons t ts => by_cases hc : c = sep <;> simp [hc]

theorem jsSplit_cons_of_head (sep c : Char) (s : JStr) {t : JStr} {ts : List JStr}
    (h : jsSplit sep s = t :: ts) :
    jsSplit sep (c :: s) = if c = sep then [] :: t :: ts else (c :: t) :: ts := by
  rw [jsSplit, h]

theorem jsSplit_sepFree {sep : Char} : ∀ {a : JStr}, (∀ c ∈ a, c ≠ sep) →
    jsSplit sep a = [a] := by
  intro a
  induction a with
  | nil => intro _; rfl
  | cons c s ih =>
    intro h
    have hs := ih fun x hx => h x (List.mem_cons_of_mem c hx)
    rw [jsSplit_cons_of_head sep c s hs, if_neg (h c (List.mem_cons_self c s))]

theorem jsSplit_append_sep {sep : Char} {b : JStr} : ∀ {a : JStr}, (∀ c ∈ a, c ≠ sep) →
    jsSplit sep (a ++ sep :: b) = a :: jsSplit sep b := by
  intro a
  induction a with
  | nil =>
    intro _
    rw [List.nil_append]
    cases h : jsSplit sep b with
    | nil => exact absurd h (jsSplit_ne_nil sep b)
    | cons t ts => rw [jsSplit_cons_of_head sep sep b h, if_pos rfl, ← h]
  | cons c a' ih =>
    intro h
    have hih := ih fun x hx => h x (List.mem_cons_of_mem c hx)
    rw [List.cons_append]
    cases hj : jsSplit sep (a' ++ sep :: b) with
    | nil => exact absurd hj (jsSplit_ne_nil sep _)
    | cons t ts =>
      rw [jsSplit_cons_of_head sep c _ hj, if_neg (h c (List.mem_cons_self c a'))]
      rw [hj] at hih
      have ht : t = a' := (List.cons.injEq _ _ _ _).mp hih |>.1
      have hts : ts = jsSplit sep b := (List.cons.injEq _ _ _ _).mp hih |>.2
      rw [ht, hts]

theorem joinSep_cons (sep : Char) (s : JStr) {ss : List JStr} (h : ss ≠ []) :
    joinSep sep (s :: ss) = s ++ sep :: joinSep sep ss := by
  cases ss with
  | nil => exact absurd rfl h
  | cons t ts => rfl

theorem jsSplit_joinSep (sep : Char) : ∀ segs : List JStr, segs ≠ [] →
    (∀ seg ∈ segs, ∀ c ∈ seg, c ≠ sep) → jsSplit sep (joinSep sep segs) = segs := by
  intro segs
  induction segs with
  | nil => intro h; exact absurd rfl h
  | cons s ss ih =>
    intro _ hall
    cases ss with
    | nil => exact jsSplit_sepFree (hall s (List.mem_cons_self s []))
    | cons t ts =>
      rw [joinSep_cons sep s (by simp)]
      rw [jsSplit_append_sep (hall s (List.mem_cons_self s (t :: ts)))]
      rw [ih (by simp) fun seg hseg => hall seg (List.mem_cons_of_mem s hseg)]

theorem splitFirst_eq {k v : JStr} (hk : ∀ c ∈ k, c ≠ '=') :
    splitFirst '=' (k ++ '=' :: v) = (k, v) := by
  induction k with
  | nil => rw [List.nil_append, splitFirst, if_pos rfl]
  | cons c k' ih =>
    rw [List.cons_append, splitFirst, if_neg (hk c (List.mem_cons_self c k'))]
    rw [ih fun x hx => hk x (List.mem_cons_of_mem c hx)]

theorem jsSplitLimit_eq {k v : JStr} (hk : ∀ c ∈ k, c ≠ '=') (hv : ∀ c ∈ v, c ≠ '=') :
    jsSplitLimit '=' 2 (k ++ '=' :: v) = [k, v] := by
  rw [jsSplitLimit, jsSplit_append_sep hk, jsSplit_sepFree hv]
  rfl

theorem contains_iff_mem (c : Char) (s : JStr) : s.contains c = true ↔ c ∈ s := by
  simp [List.contains]

/-! ## Lemmas: percent decoding is the identity on safe strings -/

theorem safeStr_spec {s : JStr} (h : safeStr s = true) :
    ∀ c ∈ s, c ≠ '?' ∧ c ≠ '=' ∧ c ≠ '&' ∧ c ≠ '%' ∧ c ≠ '+' := by
  intro c hc
  have hch := (List.all_eq_true.mp h) c hc
  simp only [safeChar, Bool.not_or, Bool.and_eq_true, Bool.not_eq_true',
    decide_eq_false_iff_not] at hch
  exact ⟨hch.1.1.1.1, hch.1.1.1.2, hch.1.1.2, hch.1.2, hch.2⟩

theorem pctTokStrict_no_pct : ∀ {s : JStr}, (∀ c ∈ s, c ≠ '%') →
    pctTokStrict s = some (s.map PTok.chr) := by
  intro s
  induction s with
  | nil => intro _; rfl
  | cons c s ih =>
    intro h
    rw [pctTokStrict.eq_def]
    dsimp only
    rw [if_neg (h c (List.mem_cons_self c s))]
    rw [ih fun x hx => h x (List.mem_cons_of_mem c hx)]
    rfl

theorem pctTokLenient_no_pct : ∀ {s : JStr}, (∀ c ∈ s, c ≠ '%') →
    pctTokLenient s = s.map PTok.chr := by
  intro s
  induction s with
  | nil => intro _; rfl
  | cons c s ih =>
    intro h
    rw [pctTokLenient.eq_def]
    dsimp only
    rw [if_neg (h c (List.mem_cons_self c s))]
    rw [ih fun x hx => h x (List.mem_cons_of_mem c hx)]
    rfl

theorem assembleStrictGo_chrs : ∀ s : JStr, assembleStrictGo [] (s.map PTok.chr) = some s := by
  intro s
  induction s with
  | nil => rfl
  | cons c s ih =>
    rw [List.map_cons, assembleStrictGo, ih]
    rfl

theorem assembleLenientGo_chrs : ∀ s : JStr, assembleLenientGo [] (s.map PTok.chr) = s := by
  intro s
  induction s with
  | nil => rfl
  | cons c s ih =>
    rw [List.map_cons, assembleLenientGo, ih]
    rfl

theorem decodeURIComponentJs_no_pct {s : JStr} (h : ∀ c ∈ s, c ≠ '%') :
    decodeURIComponentJs s = some s := by
  rw [decodeURIComponentJs, pctTokStrict_no_pct h]
  exact assembleStrictGo_chrs s

theorem plusToSpace_no_plus {s : JStr} (h : ∀ c ∈ s, c ≠ '+') : plusToSpace s = s := by
  rw [plusToSpace]
  rw [List.map_congr_left fun c hc => if_neg (h c hc)]
  exact List.map_id s

theorem formDecode_safe {s : JStr} (hpct : ∀ c ∈ s, c ≠ '%') (hplus : ∀ c ∈ s, c ≠ '+') :
    formDecode s = s := by
  rw [formDecode, plusToSpace_no_plus hplus, pctTokLenient_no_pct hpct]
  exact assembleLenientGo_chrs s

/-! ## Lemmas: the parameter object -/

theorem objGet_objSet_self (m : List (JStr × JStr)) (k v : JStr) :
    objGet (objSet m k v) k = some v := by
  induction m with
  | nil => simp [objSet, objGet]
  | cons p m ih =>
    obtain ⟨k', v'⟩ := p
    rw [objSet]
    by_cases h : k' = k
    · rw [if_pos h]
      simp [objGet]
    · rw [if_neg h]
      rw [objGet, List.find?_cons_of_neg _ (by simp [h])]
      exact ih

theorem objGet_objSet_other (m : List (JStr × JStr)) (k v k' : JStr) (h : k' ≠ k) :
    objGet (objSet m k v) k' = objGet m k' := by
  induction m with
  | nil => simp [objSet, objGet, Ne.symm h]
  | cons p m ih =>
    obtain ⟨k0, v0⟩ := p
    rw [objSet]
    by_cases h0 : k0 = k
    · rw [if_pos h0]
      subst h0
      simp [objGet, List.find?_cons, Ne.symm h]
    · rw [if_neg h0]
      by_cases h1 : k0 = k'
      · rw [objGet, List.find?_cons_of_pos _ (by simp [h1]),
          objGet, List.find?_cons_of_pos _ (by simp [h1])]
      · rw [objGet, List.find?_cons_of_neg _ (by simp [h1]),
          objGet, List.find?_cons_of_neg _ (by simp [h1])]
        exact ih

theorem objGet_foldl_objSet (ps : List (JStr × JStr)) :
    ∀ (m0 : List (JStr × JStr)) (k : JStr),
      objGet (ps.foldl (fun m kv => objSet m kv.1 kv.2) m0) k =
        match lastLookup ps k with
        | some w => some w
        | none => objGet m0 k := by
  induction ps with
  | nil => intro m0 k; rfl
  | cons p ps ih =>
    intro m0 k
    obtain ⟨k1, v1⟩ := p
    rw [List.foldl_cons, ih]
    rw [lastLookup]
    cases h : lastLookup ps k with
    | some w => simp
    | none =>
      by_cases hk : k1 = k
      · subst hk
        simp [objGet_objSet_self]
      · simp [hk, objGet_objSet_other _ _ _ _ (Ne.symm hk)]

/-! ## Lemmas: rendered parameter texts -/

theorem contains_eq_false_iff (c : Char) (s : JStr) : s.contains c = false ↔ c ∉ s := by
  simp [List.contains]

theorem wfPairs_cons {p : JStr × JStr} {ps : List (JStr × JStr)} :
    wfPairs (p :: ps) = true ↔
      safeStr p.1 = true ∧ safeStr p.2 = true ∧ wfPairs ps = true := by
  simp [wfPairs, List.all_cons, Bool.and_eq_true, and_assoc]

theorem renderPair_no_char {k v : JStr} (hk : safeStr k = true) (hv : safeStr v = true)
    {ch : Char} (hch : ch = '&' ∨ ch = '?') : ∀ c ∈ renderPair (k, v), c ≠ ch := by
  intro c hc
  rw [renderPair] at hc
  rcases List.mem_append.mp hc with h | h
  · have hs := safeStr_spec hk c h
    rcases hch with rfl | rfl
    · exact hs.2.2.1
    · exact hs.1
  · rcases List.mem_cons.mp h with rfl | h
    · rcases hch with rfl | rfl <;> decide
    · have hs := safeStr_spec hv c h
      rcases hch with rfl | rfl
      · exact hs.2.2.1
      · exact hs.1

theorem renderPair_contains_eq (k v : JStr) : (renderPair (k, v)).contains '=' = true := by
  rw [contains_iff_mem, renderPair]
  exact List.mem_append.mpr (Or.inr (List.mem_cons_self _ _))

theorem renderPair_ne_nil (k v : JStr) : renderPair (k, v) ≠ [] := by
  rw [renderPair]
  simp

theorem mem_joinSep {sep : Char} : ∀ {segs : List JStr} {c : Char},
    c ∈ joinSep sep segs → c = sep ∨ ∃ seg ∈ segs, c ∈ seg := by
  intro segs
  induction segs with
  | nil => intro c hc; simp [joinSep] at hc
  | cons t ss ih =>
    intro c hc
    cases ss with
    | nil => exact Or.inr ⟨t, List.mem_cons_self t [], hc⟩
    | cons u ts =>
      rw [joinSep_cons sep t (by simp)] at hc
      rcases List.mem_append.mp hc with h | h
      · exact Or.inr ⟨t, List.mem_cons_self t (u :: ts), h⟩
      · rcases List.mem_cons.mp h with rfl | h
        · exact Or.inl rfl
        · rcases ih h with h' | ⟨seg, hseg, hcseg⟩
          · exact Or.inl h'
          · exact Or.inr ⟨seg, List.mem_cons_of_mem t hseg, hcseg⟩

theorem mem_joinSep_head {sep : Char} {t : JStr} {ss : List JStr} {c : Char} (hc : c ∈ t) :
    c ∈ joinSep sep (t :: ss) := by
  cases ss with
  | nil => exact hc
  | cons u ts =>
    rw [joinSep_cons sep t (by simp)]
    exact List.mem_append.mpr (Or.inl hc)

theorem renderPairs_no_qmark {ps : List (JStr × JStr)} (hwf : wfPairs ps = true) :
    ∀ c ∈ renderPairs ps, c ≠ '?' := by
  intro c hc
  rcases mem_joinSep hc with rfl | ⟨seg, hseg, hcseg⟩
  · decide
  · obtain ⟨⟨k, v⟩, hkv, hkve⟩ := List.mem_map.mp hseg
    have hk := (List.all_eq_true.mp hwf _ hkv)
    rw [Bool.and_eq_true] at hk
    subst hkve
    exact renderPair_no_char hk.1 hk.2 (Or.inr rfl) c hcseg

theorem renderPairs_no_amp_in_segs {ps : List (JStr × JStr)} (hwf : wfPairs ps = true) :
    ∀ seg ∈ ps.map renderPair, ∀ c ∈ seg, c ≠ '&' := by
  intro seg hseg c hcseg
  obtain ⟨⟨k, v⟩, hkv, hkve⟩ := List.mem_map.mp hseg
  have hk := (List.all_eq_true.mp hwf _ hkv)
  rw [Bool.and_eq_true] at hk
  subst hkve
  exact renderPair_no_char hk.1 hk.2 (Or.inl rfl) c hcseg

theorem parseBarePairs_render : ∀ {ps : List (JStr × JStr)}, wfPairs ps = true →
    ∀ m0 : List (JStr × JStr), parseBarePairs (ps.map renderPair) m0 =
      (ps.foldl (fun m kv => objSet m kv.1 kv.2) m0, false) := by
  intro ps
  induction ps with
  | nil => intro _ m0; rfl
  | cons p ps ih =>
    intro hwf m0
    obtain ⟨k, v⟩ := p
    obtain ⟨hk, hv, hwf'⟩ := wfPairs_cons.mp hwf
    have hkeq : ∀ c ∈ k, c ≠ '=' := fun c hc => (safeStr_spec hk c hc).2.1
    have hveq : ∀ c ∈ v, c ≠ '=' := fun c hc => (safeStr_spec hv c hc).2.1
    have hkp : ∀ c ∈ k, c ≠ '%' := fun c hc => (safeStr_spec hk c hc).2.2.2.1
    have hvp : ∀ c ∈ v, c ≠ '%' := fun c hc => (safeStr_spec hv c hc).2.2.2.1
    rw [List.map_cons, parseBarePairs.eq_def]
    dsimp only [renderPair]
    rw [if_pos (show (k ++ '=' :: v).contains '=' = true from renderPair_contains_eq k v)]
    rw [jsSplitLimit_eq hkeq hveq]
    dsimp only [List.getD]
    rw [show ([k, v] : List JStr).get? 0 = some k from rfl,
      show ([k, v] : List JStr).get? 1 = some v from rfl]
    dsimp only [Option.getD]
    rw [decodeURIComponentJs_no_pct hkp, decodeURIComponentJs_no_pct hvp]
    dsimp only
    rw [ih hwf' (objSet m0 k v)]
    rfl

theorem filterMap_render : ∀ {qs : List (JStr × JStr)}, wfPairs qs = true →
    (qs.map renderPair).filterMap (fun seg =>
      if seg = [] then none
      else some (formDecode (splitFirst '=' seg).1, formDecode (splitFirst '=' seg).2)) =
      qs := by
  intro qs
  induction qs with
  | nil => intro _; rfl
  | cons q qs ih =>
    intro hwf
    obtain ⟨k, v⟩ := q
    obtain ⟨hk, hv, hwf'⟩ := wfPairs_cons.mp hwf
    rw [List.map_cons, List.filterMap_cons]
    rw [if_neg (renderPair_ne_nil k v)]
    rw [show renderPair (k, v) = k ++ '=' :: v from rfl]
    rw [splitFirst_eq fun c hc => (safeStr_spec hk c hc).2.1]
    rw [show ((k, v) : JStr × JStr).1 = k from rfl, show ((k, v) : JStr × JStr).2 = v from rfl]
    rw [formDecode_safe (fun c hc => (safeStr_spec hk c hc).2.2.2.1)
      (fun c hc => (safeStr_spec hk c hc).2.2.2.2)]
    rw [formDecode_safe (fun c hc => (safeStr_spec hv c hc).2.2.2.1)
      (fun c hc => (safeStr_spec hv c hc).2.2.2.2)]
    rw [ih hwf']

theorem parseURLSearchParams_render {ps : List (JStr × JStr)} (hwf : wfPairs ps = true) :
    parseURLSearchParams (renderPairs ps) = ps := by
  cases ps with
  | nil => rfl
  | cons p ps' =>
    rw [parseURLSearchParams, renderPairs]
    rw [jsSplit_joinSep '&' _ (by simp) (renderPairs_no_amp_in_segs hwf)]
    exact filterMap_render hwf

theorem objGet_foldl_objSet_nil (ps : List (JStr × JStr)) (k : JStr) :
    objGet (ps.foldl (fun m kv => objSet m kv.1 kv.2) []) k = lastLookup ps k := by
  rw [objGet_foldl_objSet]
  cases h : lastLookup ps k <;> rfl

/-- Extraction of a rendered bare `key=value&...` text recovers exactly the
last-write-wins lookup of the pair list. -/
theorem objGet_parse_renderPairs_bare {ps : List (JStr × JStr)} (hwf : wfPairs ps = true)
    (fn k : JStr) :
    objGet (parseQRContent (renderPairs ps) fn).params k = lastLookup ps k := by
  cases ps with
  | nil => rfl
  | cons p ps' =>
    have hnq : (renderPairs (p :: ps')).contains '?' = false :=
      (contains_eq_false_iff _ _).mpr fun h => renderPairs_no_qmark hwf '?' h rfl
    have heq : (renderPairs (p :: ps')).contains '=' = true := by
      rw [contains_iff_mem, renderPairs, List.map_cons]
      apply mem_joinSep_head
      obtain ⟨k0, v0⟩ := p
      rw [renderPair]
      exact List.mem_append.mpr (Or.inr (List.mem_cons_self _ _))
    rw [parseQRContent.eq_def]
    dsimp only
    rw [if_neg (show ¬ (renderPairs (p :: ps')).contains '?' = true by rw [hnq]; simp),
      if_pos heq]
    rw [show renderPairs (p :: ps') = joinSep '&' ((p :: ps').map renderPair) from rfl]
    rw [jsSplit_joinSep '&' _ (by simp) (renderPairs_no_amp_in_segs hwf)]
    rw [parseBarePairs_render hwf []]
    dsimp only
    exact objGet_foldl_objSet_nil _ k

/-- Extraction of a rendered query text `pre?key=value&...` (the prefix
free of `?`) recovers exactly the last-write-wins lookup of the pair
list. -/
theorem objGet_parse_renderPairs_query {ps : List (JStr × JStr)} (hwf : wfPairs ps = true)
    {pre : JStr} (hpre : ∀ c ∈ pre, c ≠ '?') (fn k : JStr) :
    objGet (parseQRContent (pre ++ '?' :: renderPairs ps) fn).params k = lastLookup ps k := by
  have hq : (pre ++ '?' :: renderPairs ps).contains '?' = true := by
    rw [contains_iff_mem]
    exact List.mem_append.mpr (Or.inr (List.mem_cons_self _ _))
  rw [parseQRContent.eq_def]
  dsimp only
  rw [if_pos hq]
  rw [jsSplit_append_sep hpre]
  rw [jsSplit_sepFree (renderPairs_no_qmark hwf)]
  rw [show ([pre, renderPairs ps] : List JStr).getD 1 [] = renderPairs ps from rfl]
  rw [parseURLSearchParams_render hwf]
  exact objGet_foldl_objSet_nil _ k

/-- C2: for every well-formed `key=value&...` or `(prefix)?key=value&...`
text — rendered from a pair list whose keys and values avoid the
structural characters `? = & % +` — the extractor returns a mapping
containing exactly the key/value pairs present in the text: in the `?`
form everything after the first `?` is parsed as a query string, each
`&`-separated segment is split at its first `=` and percent-decoded, and
when the same key occurs more than once the later occurrence's value wins
(`lastLookup`). -/
theorem c2_extract_exact (ps : List (JStr × JStr)) (fn pre : JStr)
    (hwf : wfPairs ps = true) (hpre : ∀ c ∈ pre, c ≠ '?') :
    (∀ k : JStr, objGet (parseQRContent (renderPairs ps) fn).params k = lastLookup ps k) ∧
    (∀ k : JStr, objGet (parseQRContent (pre ++ '?' :: renderPairs ps) fn).params k =
      lastLookup ps k) :=
  ⟨fun k => objGet_parse_renderPairs_bare hwf fn k,
   fun k => objGet_parse_renderPairs_query hwf hpre fn k⟩

/-- Witness for C2: `a=1&b=2&a=3`, bare and behind `http://x?`; the later
`a=3` wins. -/
theorem c2_witness :
    objGet (parseQRContent "a=1&b=2&a=3".toList "f".toList).params "a".toList =
      some "3".toList ∧
    objGet (parseQRContent "http://x?a=1&b=2&a=3".toList "f".toList).params "a".toList =
      some "3".toList := by
  have h := c2_extract_exact
    [("a".toList, "1".toList), ("b".toList, "2".toList), ("a".toList, "3".toList)]
    "f".toList "http://x".toList (by decide) (by decide)
  have hr : renderPairs
      [("a".toList, "1".toList), ("b".toList, "2".toList), ("a".toList, "3".toList)] =
      "a=1&b=2&a=3".toList := by decide
  have hrq : "http://x".toList ++ '?' :: renderPairs
      [("a".toList, "1".toList), ("b".toList, "2".toList), ("a".toList, "3".toList)] =
      "http://x?a=1&b=2&a=3".toList := by decide
  constructor
  · have h1 := h.1 "a".toList
    rw [hr] at h1
    exact h1.trans (by decide)
  · have h2 := h.2 "a".toList
    rw [hrq] at h2
    exact h2.trans (by decide)

theorem splitFirst_no_sep {sep : Char} : ∀ {s : JStr}, (∀ c ∈ s, c ≠ sep) →
    splitFirst sep s = (s, []) := by
  intro s
  induction s with
  | nil => intro _; rfl
  | cons c s ih =>
    intro h
    rw [splitFirst, if_neg (h c (List.mem_cons_self c s))]
    rw [ih fun x hx => h x (List.mem_cons_of_mem c hx)]

/-- C7 counterexample: on `a=%zz&b=2` the malformed percent-encoding in the
first segment aborts the bare parsing loop (the thrown `URIError` is
caught by the outer `try` and recorded on the record), so the following
well-formed segment `b=2` is NOT extracted, contradicting the claim that
a malformed segment is skipped while the remaining well-formed segments
are still extracted. -/
theorem c7_counterexample :
    objGet (parseQRContent "a=%zz&b=2".toList "f".toList).params "b".toList = none ∧
    (parseQRContent "a=%zz&b=2".toList "f".toList).params = [] ∧
    (parseQRContent "a=%zz&b=2".toList "f".toList).error = some paramsErrMsg := by
  refine ⟨?_, ?_, ?_⟩ <;> decide

/-- C7 amended: the extractor never raises (every failure is data on the
record): (1) on a text with neither `?` nor `=` it returns an empty
mapping and no error; (2) in the bare `key=value` branch a segment
without `=` is silently skipped; (3)-(4) a segment whose key or value has
malformed percent-encoding aborts the bare loop, (5) keeping the
assignments made before the failure and recording an error on the record
instead of raising, so later well-formed segments are dropped; (6) in the
`?` (query) branch a segment lacking `=` is not skipped but yields that
segment as a key with the empty value, decoded leniently; and (7) the
query branch never records an error. -/
theorem c7_extractor_error_handling :
    (∀ content fn : JStr, content.contains '?' = false → content.contains '=' = false →
      (parseQRContent content fn).params = [] ∧ (parseQRContent content fn).error = none) ∧
    (∀ (seg : JStr) (rest : List JStr) (m : List (JStr × JStr)),
      seg.contains '=' = false → parseBarePairs (seg :: rest) m = parseBarePairs rest m) ∧
    (∀ (seg : JStr) (rest : List JStr) (m : List (JStr × JStr)),
      seg.contains '=' = true →
      decodeURIComponentJs ((jsSplitLimit '=' 2 seg).getD 0 []) = none →
      parseBarePairs (seg :: rest) m = (m, true)) ∧
    (∀ (seg : JStr) (rest : List JStr) (m : List (JStr × JStr)) (dk : JStr),
      seg.contains '=' = true →
      decodeURIComponentJs ((jsSplitLimit '=' 2 seg).getD 0 []) = some dk →
      decodeURIComponentJs ((jsSplitLimit '=' 2 seg).getD 1 []) = none →
      parseBarePairs (seg :: rest) m = (m, true)) ∧
    (∀ (content fn : JStr) (m : List (JStr × JStr)),
      content.contains '?' = false → content.contains '=' = true →
      parseBarePairs (jsSplit '&' content) [] = (m, true) →
      (parseQRContent content fn).params = m ∧
      (parseQRContent content fn).error = some paramsErrMsg) ∧
    (∀ seg : JStr, seg ≠ [] → (∀ c ∈ seg, c ≠ '&') → (∀ c ∈ seg, c ≠ '=') →
      parseURLSearchParams seg = [(formDecode seg, [])]) ∧
    (∀ content fn : JStr, content.contains '?' = true →
      (parseQRContent content fn).error = none) := by
  refine ⟨?_, ?_, ?_, ?_, ?_, ?_, ?_⟩
  · intro content fn h1 h2
    rw [parseQRContent.eq_def]
    dsimp only
    rw [if_neg (show ¬ content.contains '?' = true by rw [h1]; simp),
      if_neg (show ¬ content.contains '=' = true by rw [h2]; simp)]
    exact ⟨rfl, rfl⟩
  · intro seg rest m h
    rw [parseBarePairs.eq_def]
    dsimp only
    rw [if_neg (show ¬ seg.contains '=' = true by rw [h]; simp)]
  · intro seg rest m h hd
    rw [parseBarePairs.eq_def]
    dsimp only
    rw [if_pos h]
    rw [hd]
  · intro seg rest m dk h hdk hdv
    rw [parseBarePairs.eq_def]
    dsimp only
    rw [if_pos h]
    rw [hdk]
    dsimp only
    rw [hdv]
  · intro content fn m h1 h2 hp
    rw [parseQRContent.eq_def]
    dsimp only
    rw [if_neg (show ¬ content.contains '?' = true by rw [h1]; simp),
      if_pos h2, hp]
    exact ⟨rfl, rfl⟩
  · intro seg hne hamp heq
    rw [parseURLSearchParams]
    rw [jsSplit_sepFree hamp]
    simp only [List.filterMap_cons, List.filterMap_nil]
    rw [if_neg hne, splitFirst_no_sep heq]
    rfl
  · intro content fn h
    rw [parseQRContent.eq_def]
    dsimp only
    rw [if_pos h]

/-- Witness for C7: a text with neither `?` nor `=`; a bare segment without
`=`; a bare segment with a malformed value encoding; a query segment
without `=`. -/
theorem c7_witness :
    ((parseQRContent "plain".toList "f".toList).params = [] ∧
      (parseQRContent "plain".toList "f".toList).error = none) ∧
    parseBarePairs ["x".toList, "b=2".toList] [] = parseBarePairs ["b=2".toList] [] ∧
    parseBarePairs ["a=%zz".toList, "b=2".toList] [] = ([], true) ∧
    parseURLSearchParams "foo".toList = [(formDecode "foo".toList, [])] := by
  obtain ⟨ha, hb, _, hcv, _, he, _⟩ := c7_extractor_error_handling
  exact ⟨ha _ _ (by decide) (by decide), hb _ _ _ (by decide),
    hcv _ _ _ "a".toList (by decide) (by decide) (by decide),
    he _ (by decide) (by decide) (by decide)⟩

/-! ## Lemmas: matches never cross separator characters -/

theorem digit_not_structural {c : Char} (h : c.isDigit = true) :
    c ≠ '&' ∧ c ≠ '?' ∧ c ≠ '=' ∧ c ≠ '%' ∧ c ≠ '+' := by
  refine ⟨?_, ?_, ?_, ?_, ?_⟩ <;> rintro rfl <;> simp at h

theorem span_chars {m : TimeMatch} (hv : validMatch m) :
    ∀ c ∈ spanOf m, c.isDigit = true ∨ c ∈ ('-' :: ' ' :: 'T' :: ':' :: ctEq) := by
  obtain ⟨⟨y, mo, d, hdp, _, hyd, _, hmod, _, hdd⟩, hsp, _, hhd,
    mi, se, hrest, _, hmid, _, hsed⟩ := hv
  intro c hc
  have hc' : c ∈ ctEq ∨ c ∈ y ∨ c = '-' ∨ c ∈ mo ∨ c ∈ d ∨ c = m.sep ∨
      c ∈ m.hourStr ∨ c = ':' ∨ c ∈ mi ∨ c ∈ se := by
    rw [spanOf, hdp, hrest] at hc
    simp only [List.mem_append, List.mem_cons] at hc
    tauto
  rcases hc' with h | h | h | h | h | h | h | h | h | h
  · exact Or.inr (by simp [h])
  · exact Or.inl (List.all_eq_true.mp hyd c h)
  · exact Or.inr (by simp [h])
  · exact Or.inl (List.all_eq_true.mp hmod c h)
  · exact Or.inl (List.all_eq_true.mp hdd c h)
  · subst h
    rcases hsp with h | h <;> rw [h] <;> exact Or.inr (by simp)
  · exact Or.inl (List.all_eq_true.mp hhd c h)
  · exact Or.inr (by simp [h])
  · exact Or.inl (List.all_eq_true.mp hmid c h)
  · exact Or.inl (List.all_eq_true.mp hsed c h)

theorem span_no_sep {m : TimeMatch} (hv : validMatch m) {ch : Char}
    (hch : ch = '&' ∨ ch = '?') : ch ∉ spanOf m := by
  intro hmem
  rcases span_chars hv ch hmem with h | h
  · rcases hch with rfl | rfl <;> simp at h
  · rcases hch with rfl | rfl <;> revert h <;> decide

theorem matchPat_append {x u : JStr} {m : TimeMatch} (h : matchPat x = some m) :
    matchPat (x ++ u) = some ⟨m.datePart, m.sep, m.hourStr, m.rest, m.tail ++ u⟩ := by
  obtain ⟨hx, hv⟩ := matchPat_sound h
  have hxu : x ++ u =
      spanOf ⟨m.datePart, m.sep, m.hourStr, m.rest, m.tail ++ u⟩ ++ (m.tail ++ u) := by
    rw [hx]
    simp [spanOf, List.append_assoc]
  rw [hxu]
  exact matchPat_complete ⟨hv.1, hv.2.1, hv.2.2.1, hv.2.2.2.1, hv.2.2.2.2⟩

theorem matchPat_boundary {x u : JStr} {ch : Char} (hch : ch = '&' ∨ ch = '?')
    (h : matchPat x = none) : matchPat (x ++ ch :: u) = none := by
  by_contra hsome
  obtain ⟨m, hm⟩ := Option.ne_none_iff_exists'.mp hsome
  obtain ⟨hx, hv⟩ := matchPat_sound hm
  have hlen := spanOf_length hv
  by_cases hxl : 30 ≤ x.length
  · have htake : (x ++ ch :: u).take 30 = spanOf m := by
      rw [hx, ← hlen]
      exact List.take_left _ _
    have htake2 : (x ++ ch :: u).take 30 = x.take 30 :=
      List.take_append_of_le_length hxl
    have hdrop : (x ++ ch :: u).drop 30 = m.tail := by
      rw [hx, ← hlen]
      exact List.drop_left _ _
    have hdrop2 : (x ++ ch :: u).drop 30 = x.drop 30 ++ ch :: u :=
      List.drop_append_of_le_length hxl
    have hx30 : x = spanOf m ++ x.drop 30 := by
      rw [← htake, htake2]
      exact (List.take_append_drop 30 x).symm
    have hmx : matchPat (spanOf ⟨m.datePart, m.sep, m.hourStr, m.rest, x.drop 30⟩ ++
        x.drop 30) = some ⟨m.datePart, m.sep, m.hourStr, m.rest, x.drop 30⟩ :=
      matchPat_complete ⟨hv.1, hv.2.1, hv.2.2.1, hv.2.2.2.1, hv.2.2.2.2⟩
    have hspan_eq : spanOf ⟨m.datePart, m.sep, m.hourStr, m.rest, x.drop 30⟩ = spanOf m := rfl
    rw [hspan_eq, ← hx30] at hmx
    rw [hmx] at h
    exact absurd h (by simp)
  · push_neg at hxl
    have h1 : (x ++ ch :: u)[x.length]? = some ch := by
      rw [List.getElem?_append_right (le_refl x.length)]
      simp
    have h2 : (x ++ ch :: u)[x.length]? = (spanOf m)[x.length]? := by
      rw [hx]
      exact List.getElem?_append_left (by omega)
    rw [h2] at h1
    exact span_no_sep hv hch (List.getElem?_mem h1)

theorem modifyGo_append_sep {ch : Char} (hch : ch = '&' ∨ ch = '?') :
    ∀ x t : JStr, modifyGo (x ++ ch :: t) =
      match modifyGo x with
      | some x' => some (x' ++ ch :: t)
      | none => (modifyGo t).map (fun t' => x ++ ch :: t') := by
  intro x
  induction x with
  | nil =>
    intro t
    rw [List.nil_append]
    have hmp : matchPat (ch :: t) = none := by
      rcases hch with rfl | rfl <;> rfl
    have hgo : modifyGo (ch :: t) = (modifyGo t).map (ch :: ·) := by
      rw [modifyGo, hmp]
    rw [hgo]
    dsimp only [modifyGo]
    cases modifyGo t <;> simp
  | cons c x' ih =>
    intro t
    rw [List.cons_append, modifyGo]
    cases hm : matchPat (c :: x') with
    | some m =>
      have hm2 : matchPat (c :: (x' ++ ch :: t)) =
          some ⟨m.datePart, m.sep, m.hourStr, m.rest, m.tail ++ ch :: t⟩ :=
        @matchPat_append (c :: x') (ch :: t) m hm
      rw [hm2]
      have hcx : modifyGo (c :: x') = some (replacement m ++ m.tail) := by
        rw [modifyGo, hm]
      rw [hcx]
      have hrepl : replacement ⟨m.datePart, m.sep, m.hourStr, m.rest, m.tail ++ ch :: t⟩ =
          replacement m := rfl
      simp [hrepl, List.append_assoc]
    | none =>
      have hm2 : matchPat (c :: (x' ++ ch :: t)) = none :=
        @matchPat_boundary (c :: x') t ch hch hm
      rw [hm2]
      have hcx : modifyGo (c :: x') = (modifyGo x').map (c :: ·) := by
        rw [modifyGo, hm]
      rw [hcx, ih t]
      cases modifyGo x' <;> cases modifyGo t <;> simp

theorem bumpSegs_length : ∀ {segs segs' : List JStr}, bumpSegs segs = some segs' →
    segs'.length = segs.length := by
  intro segs
  induction segs with
  | nil => intro segs' h; simp [bumpSegs] at h
  | cons t ss ih =>
    intro segs' h
    rw [bumpSegs] at h
    cases hm : modifyGo t with
    | some t' =>
      rw [hm] at h
      rw [← Option.some_inj.mp h]
      simp
    | none =>
      rw [hm] at h
      simp only [Option.map_eq_some'] at h
      obtain ⟨l, hl, rfl⟩ := h
      simp [ih hl]

theorem modifyGo_joinSep : ∀ segs : List JStr, segs ≠ [] →
    modifyGo (joinSep '&' segs) = (bumpSegs segs).map (joinSep '&') := by
  intro segs
  induction segs with
  | nil => intro h; exact absurd rfl h
  | cons t ss ih =>
    intro _
    cases ss with
    | nil =>
      rw [show joinSep '&' [t] = t from rfl, bumpSegs]
      cases hm : modifyGo t with
      | some t' => simp [joinSep]
      | none => simp [bumpSegs]
    | cons u ts =>
      rw [joinSep_cons '&' t (by simp)]
      rw [modifyGo_append_sep (Or.inl rfl) t (joinSep '&' (u :: ts))]
      rw [bumpSegs]
      cases hm : modifyGo t with
      | some t' =>
        simp only [Option.map_some']
        rw [joinSep_cons '&' t' (by simp)]
      | none =>
        dsimp only
        rw [ih (by simp)]
        cases hb : bumpSegs (u :: ts) with
        | none => simp
        | some l =>
          have hlne : l ≠ [] := by
            have := bumpSegs_length hb
            intro hnil
            rw [hnil] at this
            simp at this
          simp only [Option.map_some']
          rw [joinSep_cons '&' t hlne]

/-! ## Lemmas: a match inside a well-formed segment sits at a createTime key -/

theorem eq_pos_unique {k v : JStr} (hk : ∀ c ∈ k, c ≠ '=') (hv : ∀ c ∈ v, c ≠ '=')
    {j : Nat} (h : (k ++ '=' :: v)[j]? = some '=') : j = k.length := by
  rcases lt_trichotomy j k.length with hj | hj | hj
  · rw [List.getElem?_append_left hj] at h
    exact absurd rfl (hk '=' (List.getElem?_mem h))
  · exact hj
  · rw [List.getElem?_append_right (by omega)] at h
    have hd : j - k.length = (j - k.length - 1) + 1 := by omega
    rw [hd] at h
    simp only [List.getElem?_cons_succ] at h
    exact absurd rfl (hv '=' (List.getElem?_mem h))

theorem ctEq_split : ctEq = ctKey ++ ['='] := by decide

theorem ctKey_length : ctKey.length = 10 := by decide

theorem safeStr_bumpHour (h : JStr) : safeStr (bumpHour h) = true := by
  have hg : ∀ n < 24, safeStr (padStart2 (Nat.toDigits 10 n)) = true := by decide
  exact hg _ (Nat.mod_lt _ (by norm_num))

theorem modifyGo_segment {k v out : JStr} (hk : safeStr k = true) (hv : safeStr v = true)
    (h : modifyGo (k ++ '=' :: v) = some out) :
    ∃ m : TimeMatch, validMatch m ∧ (∃ k0 : JStr, k = k0 ++ ctKey) ∧
      v = m.datePart ++ m.sep :: m.hourStr ++ m.rest ++ m.tail ∧
      out = k ++ '=' :: (m.datePart ++ m.sep :: bumpHour m.hourStr ++ m.rest ++ m.tail) ∧
      safeStr (m.datePart ++ m.sep :: bumpHour m.hourStr ++ m.rest ++ m.tail) = true := by
  obtain ⟨i, m, _, hmp, hvm, _, hout⟩ := modifyGo_some_decomp h
  have hdrop : (k ++ '=' :: v).drop i = spanOf m ++ m.tail := (matchPat_sound hmp).1
  have hlen30 := spanOf_length hvm
  have hspan2 : spanOf m = ctEq ++ (m.datePart ++ m.sep :: m.hourStr ++ m.rest) := by
    rw [spanOf]
    simp [List.append_assoc]
  have h10 : (spanOf m)[10]? = some '=' := by
    rw [hspan2, List.getElem?_append_left (show (10 : Nat) < ctEq.length by decide)]
    decide
  have hceq : (k ++ '=' :: v)[i + 10]? = some '=' := by
    rw [← List.getElem?_drop, hdrop, List.getElem?_append_left (by omega), h10]
  have hik : i + 10 = k.length :=
    eq_pos_unique (fun c hc => (safeStr_spec hk c hc).2.1)
      (fun c hc => (safeStr_spec hv c hc).2.1) hceq
  have hile : i ≤ k.length := by omega
  have hdrop2 : (k ++ '=' :: v).drop i = k.drop i ++ '=' :: v :=
    List.drop_append_of_le_length hile
  have hsplit : k.drop i ++ '=' :: v =
      ctKey ++ '=' :: (m.datePart ++ m.sep :: m.hourStr ++ m.rest ++ m.tail) := by
    rw [← hdrop2, hdrop, hspan2, ctEq_split]
    simp [List.append_assoc]
  have hlendrop : (k.drop i).length = ctKey.length := by
    rw [List.length_drop, ctKey_length]
    omega
  obtain ⟨hkdrop, hcons⟩ := List.append_inj hsplit hlendrop
  have hveq2 : v = m.datePart ++ m.sep :: m.hourStr ++ m.rest ++ m.tail := by
    injection hcons
  have hk0 : k = k.take i ++ ctKey := by
    conv_lhs => rw [← List.take_append_drop i k]
    rw [hkdrop]
  have htake : (k ++ '=' :: v).take i = k.take i := List.take_append_of_le_length hile
  have hout2 : out = k ++ '=' ::
      (m.datePart ++ m.sep :: bumpHour m.hourStr ++ m.rest ++ m.tail) := by
    rw [hout, htake, replacement, ctEq_split]
    conv_rhs => rw [hk0]
    simp [List.append_assoc]
  have hsafe : safeStr (m.datePart ++ m.sep :: bumpHour m.hourStr ++ m.rest ++ m.tail)
      = true := by
    have hv2 : safeStr (m.datePart ++ m.sep :: m.hourStr ++ m.rest ++ m.tail) = true := by
      rw [← hveq2]; exact hv
    have hb : (bumpHour m.hourStr).all safeChar = true := safeStr_bumpHour m.hourStr
    simp only [safeStr, List.all_append, List.all_cons, Bool.and_eq_true] at hv2 ⊢
    tauto
  exact ⟨m, hvm, ⟨k.take i, hk0⟩, hveq2, hout2, hsafe⟩

theorem bumpHour_digits (h : JStr) : ∀ c ∈ bumpHour h, c.isDigit = true := by
  have hg : ∀ n < 24, (padStart2 (Nat.toDigits 10 n)).all Char.isDigit = true := by decide
  intro c hc
  exact List.all_eq_true.mp (hg _ (Nat.mod_lt _ (by norm_num))) c hc

theorem replacement_chars {m : TimeMatch} (hv : validMatch m) :
    ∀ c ∈ replacement m, c.isDigit = true ∨ c ∈ ('-' :: ' ' :: 'T' :: ':' :: ctEq) := by
  obtain ⟨⟨y, mo, d, hdp, _, hyd, _, hmod, _, hdd⟩, hsp, _, _,
    mi, se, hrest, _, hmid, _, hsed⟩ := hv
  intro c hc
  have hc' : c ∈ ctEq ∨ c ∈ y ∨ c = '-' ∨ c ∈ mo ∨ c ∈ d ∨ c = m.sep ∨
      c ∈ bumpHour m.hourStr ∨ c = ':' ∨ c ∈ mi ∨ c ∈ se := by
    rw [replacement, hdp, hrest] at hc
    simp only [List.mem_append, List.mem_cons] at hc
    tauto
  rcases hc' with h | h | h | h | h | h | h | h | h | h
  · exact Or.inr (by simp [h])
  · exact Or.inl (List.all_eq_true.mp hyd c h)
  · exact Or.inr (by simp [h])
  · exact Or.inl (List.all_eq_true.mp hmod c h)
  · exact Or.inl (List.all_eq_true.mp hdd c h)
  · subst h
    rcases hsp with h | h <;> rw [h] <;> exact Or.inr (by simp)
  · exact Or.inl (bumpHour_digits m.hourStr c h)
  · exact Or.inr (by simp [h])
  · exact Or.inl (List.all_eq_true.mp hmid c h)
  · exact Or.inl (List.all_eq_true.mp hsed c h)

theorem replacement_no_sep {m : TimeMatch} (hv : validMatch m) {ch : Char}
    (hch : ch = '&' ∨ ch = '?') : ch ∉ replacement m := by
  intro hmem
  rcases replacement_chars hv ch hmem with h | h
  · rcases hch with rfl | rfl <;> simp at h
  · rcases hch with rfl | rfl <;> revert h <;> decide

theorem modifyGo_no_new_char {x x' : JStr} (h : modifyGo x = some x') {ch : Char}
    (hch : ch = '&' ∨ ch = '?') (hx : ∀ c ∈ x, c ≠ ch) : ∀ c ∈ x', c ≠ ch := by
  obtain ⟨i, m, _, hmp, hvm, _, hout⟩ := modifyGo_some_decomp h
  intro c hc
  rw [hout] at hc
  rcases List.mem_append.mp hc with hc | hc
  · rcases List.mem_append.mp hc with hc | hc
    · exact hx c (List.take_subset i x hc)
    · intro hceq
      subst hceq
      exact replacement_no_sep hvm hch hc
  · have hcx : c ∈ x := by
      have hdrop := (matchPat_sound hmp).1
      have hcd : c ∈ x.drop i := by
        rw [hdrop]
        exact List.mem_append.mpr (Or.inr hc)
      exact List.drop_subset i x hcd
    exact hx c hcx

theorem lastLookup_change_value : ∀ (pre : List (JStr × JStr)) {post : List (JStr × JStr)}
    {k0 v v' k : JStr}, k ≠ k0 →
    lastLookup (pre ++ (k0, v) :: post) k = lastLookup (pre ++ (k0, v') :: post) k := by
  intro pre
  induction pre with
  | nil =>
    intro post k0 v v' k hk
    rw [List.nil_append, List.nil_append, lastLookup, lastLookup]
    cases lastLookup post k <;> simp [Ne.symm hk]
  | cons p pre ih =>
    intro post k0 v v' k hk
    obtain ⟨k1, v1⟩ := p
    rw [List.cons_append, List.cons_append, lastLookup, lastLookup, ih hk]

theorem bumpSegs_pairs : ∀ {ps : List (JStr × JStr)}, wfPairs ps = true →
    (∀ kv ∈ ps, (∃ k0 : JStr, kv.1 = k0 ++ ctKey) → kv.1 = ctKey) →
    ∀ {segs' : List JStr}, bumpSegs (ps.map renderPair) = some segs' →
    ∃ (pre post : List (JStr × JStr)) (v v' : JStr),
      ps = pre ++ (ctKey, v) :: post ∧
      segs' = (pre ++ (ctKey, v') :: post).map renderPair ∧
      wfPairs (pre ++ (ctKey, v') :: post) = true := by
  intro ps
  induction ps with
  | nil => intro _ _ segs' h; simp [bumpSegs] at h
  | cons p ps ih =>
    intro hwf hct segs' h
    obtain ⟨k, v⟩ := p
    obtain ⟨hk, hv, hwf'⟩ := wfPairs_cons.mp hwf
    rw [List.map_cons, bumpSegs] at h
    cases hm : modifyGo (renderPair (k, v)) with
    | some out =>
      rw [hm] at h
      obtain ⟨m, hvm, hsuf, hveq, hout, hsafe⟩ :=
        modifyGo_segment hk hv (show modifyGo (k ++ '=' :: v) = some out from hm)
      have hkct : k = ctKey := hct (k, v) (List.mem_cons_self _ _) hsuf
      refine ⟨[], ps, v,
        m.datePart ++ m.sep :: bumpHour m.hourStr ++ m.rest ++ m.tail, ?_, ?_, ?_⟩
      · simp [hkct]
      · rw [← Option.some_inj.mp h]
        simp [hout, hkct, renderPair]
      · rw [List.nil_append]
        refine wfPairs_cons.mpr ⟨?_, hsafe, hwf'⟩
        show safeStr ctKey = true
        decide
    | none =>
      rw [hm] at h
      simp only [Option.map_eq_some'] at h
      obtain ⟨l, hl, rfl⟩ := h
      obtain ⟨pre, post, v0, v0', hps, hsegs, hwf2⟩ :=
        ih hwf' (fun kv hkv => hct kv (List.mem_cons_of_mem _ hkv)) hl
      refine ⟨(k, v) :: pre, post, v0, v0', ?_, ?_, ?_⟩
      · rw [List.cons_append, ← hps]
      · rw [List.cons_append, List.map_cons, ← hsegs]
      · exact wfPairs_cons.mpr ⟨hk, hv, hwf2⟩

/-- C5 counterexample: on the text `XcreateTime=2024-01-01 10:00:00` — a
well-formed `key=value` text whose only key `XcreateTime` is not
`createTime` — the mutator's pattern still matches (the span starts inside
the key), so extracting from the mutated text changes the value of a
non-createTime key, refuting the claim for arbitrary input texts. -/
theorem c5_counterexample :
    "XcreateTime".toList ≠ ctKey ∧
    modifyCreateTime "XcreateTime=2024-01-01 10:00:00".toList =
      "XcreateTime=2024-01-01 11:00:00".toList ∧
    objGet (parseQRContent "XcreateTime=2024-01-01 10:00:00".toList "f".toList).params
      "XcreateTime".toList = some "2024-01-01 10:00:00".toList ∧
    objGet (parseQRContent (modifyCreateTime "XcreateTime=2024-01-01 10:00:00".toList)
      "f".toList).params "XcreateTime".toList = some "2024-01-01 11:00:00".toList := by
  refine ⟨by decide, by decide, by decide, by decide⟩

/-- C5 amended: for every well-formed `key=value&...` or
`(prefix)?key=value&...` text in which every key that ends with the string
`createTime` is exactly `createTime`, extracting parameters from the
mutated text yields, for every key other than `createTime`, exactly the
same value as extracting from the original text. -/
theorem c5_roundtrip (ps : List (JStr × JStr)) (fn pre : JStr)
    (hwf : wfPairs ps = true)
    (hct : ∀ kv ∈ ps, (∃ k0 : JStr, kv.1 = k0 ++ ctKey) → kv.1 = ctKey)
    (hpre : ∀ c ∈ pre, c ≠ '?') :
    (∀ k : JStr, k ≠ ctKey →
      objGet (parseQRContent (modifyCreateTime (renderPairs ps)) fn).params k =
        objGet (parseQRContent (renderPairs ps) fn).params k) ∧
    (∀ k : JStr, k ≠ ctKey →
      objGet (parseQRContent (modifyCreateTime (pre ++ '?' :: renderPairs ps)) fn).params k =
        objGet (parseQRContent (pre ++ '?' :: renderPairs ps) fn).params k) := by
  constructor
  · intro k hkct
    cases hmg : modifyGo (renderPairs ps) with
    | none => rw [modifyCreateTime, hmg, Option.getD_none]
    | some out =>
      rw [modifyCreateTime, hmg, Option.getD_some]
      cases hps : ps with
      | nil =>
        rw [hps] at hmg
        exact absurd hmg (by simp [renderPairs, joinSep, modifyGo])
      | cons p ps' =>
        subst hps
        have hjoin := modifyGo_joinSep ((p :: ps').map renderPair) (by simp)
        rw [show renderPairs (p :: ps') = joinSep '&' ((p :: ps').map renderPair) from rfl,
          hjoin] at hmg
        simp only [Option.map_eq_some'] at hmg
        obtain ⟨segs', hb, hout⟩ := hmg
        obtain ⟨pre2, post2, v, v', hps2, hsegs, hwf2⟩ := bumpSegs_pairs hwf hct hb
        have hout2 : out = renderPairs (pre2 ++ (ctKey, v') :: post2) := by
          rw [← hout, hsegs]
          rfl
        rw [hout2, objGet_parse_renderPairs_bare hwf2 fn k]
        have hwfo : wfPairs (pre2 ++ (ctKey, v) :: post2) = true := by
          rw [← hps2]; exact hwf
        rw [hps2, objGet_parse_renderPairs_bare hwfo fn k]
        exact (lastLookup_change_value pre2 hkct).symm
  · intro k hkct
    have hsep := modifyGo_append_sep (Or.inr rfl) pre (renderPairs ps)
    cases hmp : modifyGo pre with
    | some p' =>
      rw [hmp] at hsep
      dsimp only at hsep
      rw [modifyCreateTime, hsep, Option.getD_some]
      have hp' : ∀ c ∈ p', c ≠ '?' := modifyGo_no_new_char hmp (Or.inr rfl) hpre
      rw [objGet_parse_renderPairs_query hwf hp' fn k,
        objGet_parse_renderPairs_query hwf hpre fn k]
    | none =>
      rw [hmp] at hsep
      dsimp only at hsep
      cases hmg : modifyGo (renderPairs ps) with
      | none =>
        rw [hmg] at hsep
        simp only [Option.map_none'] at hsep
        rw [modifyCreateTime, hsep, Option.getD_none]
      | some out =>
        rw [hmg] at hsep
        simp only [Option.map_some'] at hsep
        rw [modifyCreateTime, hsep, Option.getD_some]
        cases hps : ps with
        | nil =>
          rw [hps] at hmg
          exact absurd hmg (by simp [renderPairs, joinSep, modifyGo])
        | cons p ps' =>
          subst hps
          have hjoin := modifyGo_joinSep ((p :: ps').map renderPair) (by simp)
          rw [show renderPairs (p :: ps') = joinSep '&' ((p :: ps').map renderPair) from rfl,
            hjoin] at hmg
          simp only [Option.map_eq_some'] at hmg
          obtain ⟨segs', hb, hout⟩ := hmg
          obtain ⟨pre2, post2, v, v', hps2, hsegs, hwf2⟩ := bumpSegs_pairs hwf hct hb
          have hout2 : out = renderPairs (pre2 ++ (ctKey, v') :: post2) := by
            rw [← hout, hsegs]
            rfl
          rw [hout2, objGet_parse_renderPairs_query hwf2 hpre fn k]
          have hwfo : wfPairs (pre2 ++ (ctKey, v) :: post2) = true := by
            rw [← hps2]; exact hwf
          rw [hps2, objGet_parse_renderPairs_query hwfo hpre fn k]
          exact (lastLookup_change_value pre2 hkct).symm

/-- Witness for C5 at the pair list `a=1&createTime=2024-01-01 10:00:00`,
bare and behind `http://x?`, checked on the unrelated key `a`. -/
theorem c5_witness :
    objGet (parseQRContent (modifyCreateTime (renderPairs
        [("a".toList, "1".toList), ("createTime".toList, "2024-01-01 10:00:00".toList)]))
      "f".toList).params "a".toList =
      objGet (parseQRContent (renderPairs
        [("a".toList, "1".toList), ("createTime".toList, "2024-01-01 10:00:00".toList)])
      "f".toList).params "a".toList ∧
    objGet (parseQRContent (modifyCreateTime ("http://x".toList ++ '?' :: renderPairs
        [("a".toList, "1".toList), ("createTime".toList, "2024-01-01 10:00:00".toList)]))
      "f".toList).params "a".toList =
      objGet (parseQRContent ("http://x".toList ++ '?' :: renderPairs
        [("a".toList, "1".toList), ("createTime".toList, "2024-01-01 10:00:00".toList)])
      "f".toList).params "a".toList := by
  have h := c5_roundtrip
    [("a".toList, "1".toList), ("createTime".toList, "2024-01-01 10:00:00".toList)]
    "f".toList "http://x".toList (by decide)
    (by
      intro kv hkv hex
      rcases List.mem_cons.mp hkv with rfl | hkv2
      · obtain ⟨k0, hk0⟩ := hex
        have hlen := congrArg List.length hk0
        rw [List.length_append, ctKey_length] at hlen
        simp at hlen
      · rcases List.mem_cons.mp hkv2 with rfl | habs
        · rfl
        · simp at habs)
    (by decide)
  exact ⟨h.1 "a".toList (by decide), h.2 "a".toList (by decide)⟩

end RewriteQR
